import Mathlib

/-!
Verification development for the AI-powered todo service's extraction and
analysis pipelines (the two API route handlers and the form-side priority
normalization).  JavaScript strings are modelled as `List Char`, JSON values
as the inductive `Json`, and the two route handlers as pure functions that
additionally report how many times the upstream text-completion service was
invoked.
-/

set_option maxHeartbeats 1000000

/-! ## Character classes and whitespace handling -/

/-- The backtick character (written via its code point). -/
def btChar : Char := Char.ofNat 96

/-- JSON whitespace: the four characters accepted between JSON tokens. -/
def isWs (c : Char) : Bool :=
  c = ' ' || c = '\t' || c = '\n' || c = '\r'

/-- ECMAScript whitespace, as used by `String.prototype.trim` and the regex
class `\s`: JSON whitespace plus vertical tab, form feed, NBSP, BOM and the
line/paragraph separators. -/
def isJsWs (c : Char) : Bool :=
  c = ' ' || c = '\t' || c = '\n' || c = '\r' || c = '\x0b' || c = '\x0c' ||
  c = ' ' || c = '﻿' || c = ' ' || c = ' '

/-- Drop leading JSON whitespace. -/
def skipWs : List Char → List Char
  | [] => []
  | c :: cs => if isWs c then skipWs cs else c :: cs

/-- Model of `String.prototype.trim`: remove leading and trailing
ECMAScript whitespace. -/
def jsTrim (l : List Char) : List Char :=
  ((l.dropWhile isJsWs).reverse.dropWhile isJsWs).reverse

/-- Helper for `collapseWs`: the boolean records whether the previous
character was whitespace (so the run has already emitted its space). -/
def collapseWsAux : Bool → List Char → List Char
  | _, [] => []
  | prev, c :: cs =>
    if isJsWs c then
      if prev then collapseWsAux true cs else ' ' :: collapseWsAux true cs
    else c :: collapseWsAux false cs

/-- Model of `.replace(/\s+/g, ' ')`: collapse every whitespace run to a
single space. -/
def collapseWs (l : List Char) : List Char := collapseWsAux false l

/-- The preprocessing applied to the extraction prompt:
`prompt.trim().replace(/\s+/g, ' ')`. -/
def normalizePrompt (l : List Char) : List Char := collapseWs (jsTrim l)

/-- Does the list start with the given pattern? -/
def startsWithL : List Char → List Char → Bool
  | [], _ => true
  | _ :: _, [] => false
  | p :: ps, c :: cs => p = c && startsWithL ps cs

/-- Model of `String.prototype.includes`: does `pat` occur somewhere in the
list? -/
def occursIn (pat : List Char) : List Char → Bool
  | [] => pat.isEmpty
  | c :: cs => startsWithL pat (c :: cs) || occursIn pat cs

/-! ## JSON values and the model of `JSON.parse` -/

/-- JSON values.  Numbers are kept as their source lexeme (the exact digit
sequence), which is all the pipelines ever inspect. -/
inductive Json where
  | null : Json
  | bool (b : Bool) : Json
  | num (lexeme : List Char) : Json
  | str (s : List Char) : Json
  | arr (elems : List Json) : Json
  | obj (fields : List (List Char × Json)) : Json

/-- Field lookup in an object's field list (first match). -/
def lookupField : List (List Char × Json) → List Char → Option Json
  | [], _ => none
  | (k', v) :: rest, k => if k' = k then some v else lookupField rest k

/-- JavaScript property read `j[k]` on a parsed JSON value; `none` models
`undefined`. -/
def jget (j : Json) (k : List Char) : Option Json :=
  match j with
  | .obj fields => lookupField fields k
  | _ => none

/-- Replace the binding for `k` (keeping its position) or append it. -/
def setField : List (List Char × Json) → List Char → Json → List (List Char × Json)
  | [], k, v => [(k, v)]
  | (k', v') :: rest, k, v =>
    if k' = k then (k, v) :: rest else (k', v') :: setField rest k v

/-- JavaScript property write `j[k] = v`; assignment on a non-object is
modelled as a no-op (it is never reached under the claims' hypotheses). -/
def jset (j : Json) (k : List Char) (v : Json) : Json :=
  match j with
  | .obj fields => .obj (setField fields k v)
  | _ => j

/-- Is a JSON number lexeme numerically zero (mantissa digits all zero)? -/
def numLexIsZero (lex : List Char) : Bool :=
  (lex.takeWhile (fun c => !(c = 'e' || c = 'E'))).all fun c => !c.isDigit || c = '0'

/-- JavaScript falsiness of an optional JSON value (`!x`): `undefined`,
`null`, `false`, `""` and `0` are falsy. -/
def jsFalsy : Option Json → Bool
  | none => true
  | some .null => true
  | some (.bool b) => !b
  | some (.str s) => s.isEmpty
  | some (.num lex) => numLexIsZero lex
  | some (.arr _) => false
  | some (.obj _) => false

/-- Value of a hexadecimal digit. -/
def hexVal (c : Char) : Option Nat :=
  if c.isDigit then some (c.toNat - 48)
  else if 'a' ≤ c && c ≤ 'f' then some (c.toNat - 87)
  else if 'A' ≤ c && c ≤ 'F' then some (c.toNat - 55)
  else none

/-- Decoded character of a single-letter JSON escape. -/
def escChar (c : Char) : Option Char :=
  if c = '"' then some '"'
  else if c = '\\' then some '\\'
  else if c = '/' then some '/'
  else if c = 'b' then some (Char.ofNat 8)
  else if c = 'f' then some (Char.ofNat 12)
  else if c = 'n' then some '\n'
  else if c = 'r' then some '\r'
  else if c = 't' then some '\t'
  else none

/-- Parse a JSON string body (the opening quote already consumed), returning
the decoded content and the input after the closing quote.  Raw control
characters are rejected, as in `JSON.parse`. -/
def parseStrBody : List Char → Option (List Char × List Char)
  | [] => none
  | c :: cs =>
    if c = '"' then some ([], cs)
    else if c = '\\' then
      match cs with
      | [] => none
      | e :: cs2 =>
        if e = 'u' then
          match cs2 with
          | h1 :: h2 :: h3 :: h4 :: cs3 =>
            match hexVal h1, hexVal h2, hexVal h3, hexVal h4 with
            | some a, some b, some c4, some d =>
              (parseStrBody cs3).map fun r =>
                (Char.ofNat (((a * 16 + b) * 16 + c4) * 16 + d) :: r.1, r.2)
            | _, _, _, _ => none
          | _ => none
        else
          match escChar e with
          | some ec => (parseStrBody cs2).map fun r => (ec :: r.1, r.2)
          | none => none
    else if c.toNat < 32 then none
    else (parseStrBody cs).map fun r => (c :: r.1, r.2)
termination_by l => l.length
decreasing_by all_goals (first | (simp_all; omega) | simp_all)

/-- Exponent part of a JSON number (possibly empty); `acc` is the lexeme
consumed so far. -/
def numExp (acc : List Char) (l : List Char) : Option (List Char × List Char) :=
  match l with
  | c :: r =>
    if c = 'e' || c = 'E' then
      match (match r with
             | s :: r' => if s = '+' || s = '-' then ([s], r') else (([] : List Char), r)
             | [] => ([], r)) with
      | (sgn, r1) =>
        match List.span Char.isDigit r1 with
        | ([], _) => none
        | (ds, r2) => some (acc ++ c :: (sgn ++ ds), r2)
    else some (acc, l)
  | [] => some (acc, [])

/-- Fraction part of a JSON number (possibly empty), then the exponent. -/
def numFrac (acc : List Char) (l : List Char) : Option (List Char × List Char) :=
  match l with
  | '.' :: r =>
    (match List.span Char.isDigit r with
     | ([], _) => none
     | (ds, r2) => numExp (acc ++ '.' :: ds) r2)
  | _ => numExp acc l

/-- Parse a JSON number (grammar `-?(0|[1-9][0-9]*)(\.[0-9]+)?([eE][+-]?[0-9]+)?`),
returning its lexeme and the rest of the input. -/
def parseNum (l : List Char) : Option (List Char × List Char) :=
  match l with
  | [] => none
  | c :: r =>
    if c = '-' then
      match r with
      | [] => none
      | c1 :: r1 =>
        if c1 = '0' then numFrac ['-', '0'] r1
        else if c1.isDigit then
          match List.span Char.isDigit r1 with
          | (ds, r2) => numFrac ('-' :: c1 :: ds) r2
        else none
    else if c = '0' then numFrac ['0'] r
    else if c.isDigit then
      match List.span Char.isDigit r with
      | (ds, r2) => numFrac (c :: ds) r2
    else none

mutual

/-- Fuel-indexed model of `JSON.parse`'s value grammar.  Returns the parsed
value and the unconsumed remainder. -/
def parseVal : Nat → List Char → Option (Json × List Char)
  | 0, _ => none
  | f + 1, cs =>
    match skipWs cs with
    | [] => none
    | c :: rest =>
      if c = '{' then
        match skipWs rest with
        | '}' :: r2 => some (Json.obj [], r2)
        | _ => parseMembers f rest []
      else if c = '[' then
        match skipWs rest with
        | ']' :: r2 => some (Json.arr [], r2)
        | _ => parseElems f rest []
      else if c = '"' then
        (parseStrBody rest).map fun r => (Json.str r.1, r.2)
      else if c = 't' then
        if startsWithL "rue".data rest then some (Json.bool true, rest.drop 3) else none
      else if c = 'f' then
        if startsWithL "alse".data rest then some (Json.bool false, rest.drop 4) else none
      else if c = 'n' then
        if startsWithL "ull".data rest then some (Json.null, rest.drop 3) else none
      else if c = '-' || c.isDigit then
        (parseNum (c :: rest)).map fun r => (Json.num r.1, r.2)
      else none

/-- Parse the members of a JSON object after its `{` (at least one member);
duplicate keys overwrite earlier ones as in JavaScript. -/
def parseMembers : Nat → List Char → List (List Char × Json) → Option (Json × List Char)
  | 0, _, _ => none
  | f + 1, cs, acc =>
    match skipWs cs with
    | '"' :: rest =>
      match parseStrBody rest with
      | none => none
      | some (key, r1) =>
        match skipWs r1 with
        | ':' :: r2 =>
          match parseVal f r2 with
          | none => none
          | some (v, r3) =>
            match skipWs r3 with
            | ',' :: r4 => parseMembers f r4 (setField acc key v)
            | '}' :: r4 => some (Json.obj (setField acc key v), r4)
            | _ => none
        | _ => none
    | _ => none

/-- Parse the elements of a JSON array after its `[` (at least one element). -/
def parseElems : Nat → List Char → List Json → Option (Json × List Char)
  | 0, _, _ => none
  | f + 1, cs, acc =>
    match parseVal f cs with
    | none => none
    | some (v, r1) =>
      match skipWs r1 with
      | ',' :: r2 => parseElems f r2 (acc ++ [v])
      | ']' :: r2 => some (Json.arr (acc ++ [v]), r2)
      | _ => none

end

/-- Model of `JSON.parse`: parse one value surrounded by whitespace only.
The fuel `3 * length + 3` is enough for every input (each recursive call
either consumes input or is one of at most two fuel steps per consumed
character). -/
def parseJson (l : List Char) : Option Json :=
  match parseVal (3 * l.length + 3) l with
  | some (v, rest) => if skipWs rest = [] then some v else none
  | none => none

/-! ## Code-fence stripping and the two-attempt response parse -/

/-- The first regex alternative: a literal ` ```json ` fence opener plus
newline. -/
def fenceOpen : List Char := "```json\n".data

/-- The second regex alternative: newline plus a literal ` ``` ` fence. -/
def fenceClose : List Char := "\n```".data

/-- A matched pattern is no longer than the text it starts. -/
def startsWithL_le (p : List Char) : ∀ l, startsWithL p l = true → p.length ≤ l.length := by
  induction p with
  | nil => intro l _; simp
  | cons c cs ih =>
    intro l h
    cases l with
    | nil => simp [startsWithL] at h
    | cons d ds =>
      simp only [startsWithL, Bool.and_eq_true] at h
      have := ih ds h.2
      simp; omega

/-- Model of `.replace(/```json\n|\n```/g, "")`: scan left to right, deleting
every occurrence of either fence marker. -/
def stripFences (l : List Char) : List Char :=
  if startsWithL fenceOpen l then stripFences (l.drop 8)
  else if startsWithL fenceClose l then stripFences (l.drop 4)
  else
    match l with
    | [] => []
    | c :: cs => c :: stripFences cs
termination_by l.length
decreasing_by
  · have := startsWithL_le fenceOpen l (by assumption)
    simp only [fenceOpen, String.data] at this
    simp only [List.length_drop]
    simp at this
    omega
  · have := startsWithL_le fenceClose l (by assumption)
    simp only [fenceClose, String.data] at this
    simp only [List.length_drop]
    simp at this
    omega
  · simp_all

/-- The `cleanJson` computed on the parse-retry path:
`responseText.replace(/```json\n|\n```/g, "").trim()`. -/
def cleanResponse (l : List Char) : List Char := jsTrim (stripFences l)

/-- The two-attempt response parse shared by both routes: parse directly,
and on failure strip the code fences, trim, and retry once. -/
def parseLlm (l : List Char) : Option Json :=
  match parseJson l with
  | some v => some v
  | none => parseJson (cleanResponse l)

/-- Wrap a response in the markdown code fence the model sometimes emits. -/
def wrapFence (l : List Char) : List Char := fenceOpen ++ l ++ fenceClose

/-! ## JSON serialization (model of `JSON.stringify`) -/

/-- Escape a string body for JSON output. -/
def escapeChars : List Char → List Char
  | [] => []
  | c :: cs =>
    (if c = '"' then ['\\', '"']
     else if c = '\\' then ['\\', '\\']
     else if c = '\n' then ['\\', 'n']
     else if c = '\r' then ['\\', 'r']
     else if c = '\t' then ['\\', 't']
     else if c.toNat < 32 then
       ['\\', 'u', '0', '0', Nat.digitChar (c.toNat / 16), Nat.digitChar (c.toNat % 16)]
     else [c]) ++ escapeChars cs

/-- Quote and escape a string for JSON output. -/
def quoteStr (s : List Char) : List Char := '"' :: (escapeChars s ++ ['"'])

/-- Join pieces with commas. -/
def joinComma : List (List Char) → List Char
  | [] => []
  | [x] => x
  | x :: rest => x ++ ',' :: joinComma rest

mutual

/-- Model of `JSON.stringify` on parsed JSON values. -/
def stringifyJson : Json → List Char
  | .null => "null".data
  | .bool true => "true".data
  | .bool false => "false".data
  | .num lex => lex
  | .str s => quoteStr s
  | .arr els => '[' :: (joinComma (stringifyList els) ++ [']'])
  | .obj fields => '{' :: (joinComma (stringifyFields fields) ++ ['}'])

/-- Stringify each array element. -/
def stringifyList : List Json → List (List Char)
  | [] => []
  | j :: rest => stringifyJson j :: stringifyList rest

/-- Stringify each object member. -/
def stringifyFields : List (List Char × Json) → List (List Char)
  | [] => []
  | (k, v) :: rest => (quoteStr k ++ ':' :: stringifyJson v) :: stringifyFields rest

end

/-! ## Dates: model of `new Date(string)` for ISO date(-time) strings -/

/-- Gregorian leap year. -/
def isLeap (y : Int) : Bool := (y % 4 = 0 && y % 100 ≠ 0) || y % 400 = 0

/-- Days in a month. -/
def daysInMonth (y : Int) (m : Nat) : Nat :=
  if m = 2 then (if isLeap y then 29 else 28)
  else if m = 4 || m = 6 || m = 9 || m = 11 then 30
  else 31

/-- Days since 1970-01-01 of a civil date (Howard Hinnant's algorithm). -/
def daysFromCivil (y : Int) (m d : Nat) : Int :=
  let y' : Int := if m ≤ 2 then y - 1 else y
  let era : Int := Int.fdiv y' 400
  let yoe : Int := y' - era * 400
  let mp : Int := if 2 < m then (m : Int) - 3 else (m : Int) + 9
  let doy : Int := Int.fdiv (153 * mp + 2) 5 + (d : Int) - 1
  let doe : Int := yoe * 365 + Int.fdiv yoe 4 - Int.fdiv yoe 100 + doy
  era * 146097 + doe - 719468

/-- Numeric value of a decimal digit character. -/
def digitVal (c : Char) : Nat := c.toNat - 48

/-- Parse the optional time portion of an ISO date-time string (empty,
`THH:MM`, or `THH:MM:SS`) into milliseconds within the day. -/
def parseTimePart : List Char → Option Nat
  | [] => some 0
  | 'T' :: h1 :: h2 :: ':' :: n1 :: n2 :: tail =>
    if h1.isDigit && h2.isDigit && n1.isDigit && n2.isDigit then
      if digitVal h1 * 10 + digitVal h2 ≤ 23 && digitVal n1 * 10 + digitVal n2 ≤ 59 then
        match tail with
        | [] => some (((digitVal h1 * 10 + digitVal h2) * 60 + (digitVal n1 * 10 + digitVal n2)) * 60000)
        | ':' :: s1 :: s2 :: [] =>
          if s1.isDigit && s2.isDigit && digitVal s1 * 10 + digitVal s2 ≤ 59 then
            some (((digitVal h1 * 10 + digitVal h2) * 60 + (digitVal n1 * 10 + digitVal n2)) * 60000 +
              (digitVal s1 * 10 + digitVal s2) * 1000)
          else none
        | _ => none
      else none
    else none
  | _ => none

/-- Parse an ISO `YYYY-MM-DD` date, optionally followed by `THH:MM` or
`THH:MM:SS`, into (days since epoch, milliseconds within the day).  This is
the fragment of the ECMAScript date-time string format exercised by the
pipelines; anything else is an invalid date. -/
def parseIso (l : List Char) : Option (Int × Nat) :=
  match l with
  | y1 :: y2 :: y3 :: y4 :: '-' :: m1 :: m2 :: '-' :: d1 :: d2 :: rest =>
    if y1.isDigit && y2.isDigit && y3.isDigit && y4.isDigit &&
       m1.isDigit && m2.isDigit && d1.isDigit && d2.isDigit then
      if 1 ≤ digitVal m1 * 10 + digitVal m2 && digitVal m1 * 10 + digitVal m2 ≤ 12 &&
         1 ≤ digitVal d1 * 10 + digitVal d2 &&
         digitVal d1 * 10 + digitVal d2 ≤
           daysInMonth (((digitVal y1 * 10 + digitVal y2) * 10 + digitVal y3) * 10 + digitVal y4)
             (digitVal m1 * 10 + digitVal m2) then
        match parseTimePart rest with
        | some ms =>
          some (daysFromCivil
              (((digitVal y1 * 10 + digitVal y2) * 10 + digitVal y3) * 10 + digitVal y4)
              (digitVal m1 * 10 + digitVal m2) (digitVal d1 * 10 + digitVal d2), ms)
        | none => none
      else none
    else none
  | _ => none

/-- Model of `new Date(s).getTime()` in milliseconds; `none` models an
invalid date (`NaN`). -/
def dateValueMs (l : List Char) : Option Int :=
  (parseIso l).map fun p => p.1 * 86400000 + (p.2 : Int)

/-! ## The extraction route (`app/api/.../route.ts`, `POST`) -/

/-- Object keys used by the extraction post-processing. -/
def keyTitle : List Char := "title".data

/-- The `description` key. -/
def keyDesc : List Char := "description".data

/-- The `priority` key. -/
def keyPriority : List Char := "priority".data

/-- The `due_date` key. -/
def keyDueDate : List Char := "due_date".data

/-- The ellipsis appended to truncated titles. -/
def dots : List Char := "...".data

/-- Title post-processing: a missing (falsy) title is filled from the
normalized prompt (truncated to 30 characters plus an ellipsis when longer);
a title longer than 50 characters is moved wholesale into an empty
description and truncated to 47 characters plus an ellipsis. -/
def postTitle (todo : Json) (prompt : List Char) : Json :=
  if jsFalsy (jget todo keyTitle) then
    jset todo keyTitle (.str (if 30 < prompt.length then prompt.take 30 ++ dots else prompt))
  else
    match jget todo keyTitle with
    | some (.str t) =>
      if 50 < t.length then
        jset (if jsFalsy (jget todo keyDesc) then jset todo keyDesc (.str t) else todo)
          keyTitle (.str (t.take 47 ++ dots))
      else todo
    | _ => todo

/-- Priority post-processing: `if (!todo.priority) todo.priority = "medium"`. -/
def postPriority (todo : Json) : Json :=
  if jsFalsy (jget todo keyPriority) then jset todo keyPriority (.str "medium".data) else todo

/-- Due-date post-processing: a due date strictly before the current date
(compared as `new Date(due) < new Date(currentDate)`) is overwritten with the
current date; invalid dates compare false (`NaN`) and are left alone. -/
def postDueDate (todo : Json) (currentDate : List Char) : Json :=
  if jsFalsy (jget todo keyDueDate) then todo
  else
    match jget todo keyDueDate with
    | some (.str ds) =>
      match dateValueMs ds, dateValueMs currentDate with
      | some dm, some tm => if dm < tm then jset todo keyDueDate (.str currentDate) else todo
      | _, _ => todo
    | _ => todo

/-- The full post-processing block of the extraction route, in source order:
title, then priority default, then past-date correction. -/
def postProcessTodo (todo : Json) (prompt currentDate : List Char) : Json :=
  postDueDate (postPriority (postTitle todo prompt)) currentDate

/-- The `prompt` field of the request body: all non-string values are
collapsed into one constructor since every such value is rejected
identically by the validation step. -/
inductive PromptInput where
  | missing : PromptInput
  | nonString : PromptInput
  | str (s : List Char) : PromptInput

/-- A thrown JavaScript error as observed by the catch blocks: an optional
`status` property, an optional `message`, and its `String(error)` rendering. -/
structure JsError where
  status : Option Nat
  message : Option (List Char)
  asString : List Char

/-- A route response: either a JSON payload with status 200, or an error
body `{error, details?}` with a status code. -/
inductive ApiResp where
  | ok (payload : Json) : ApiResp
  | err (status : Nat) (error : List Char) (details : Option (List Char)) : ApiResp

/-- `error.message?.includes(pat)` (undefined message is falsy). -/
def msgIncludes (e : JsError) (pat : List Char) : Bool :=
  match e.message with
  | some m => occursIn pat m
  | none => false

/-- `error.message || String(error)`. -/
def jsDetails (e : JsError) : List Char :=
  match e.message with
  | some m => if m.isEmpty then e.asString else m
  | none => e.asString

/-- Localized messages of the extraction route. -/
def msgBadInput : List Char := "잘못된 입력입니다. 내용을 텍스트로 입력해주세요.".data

/-- Too-short message. -/
def msgTooShort : List Char := "할 일 내용은 최소 2자 이상 구체적으로 입력해주세요.".data

/-- Too-long message. -/
def msgTooLong : List Char := "할 일 내용은 최대 500자까지 입력 가능합니다.".data

/-- Generic failure message of the catch block. -/
def msgGeneric : List Char := "AI 요청 처리에 실패했습니다. 잠시 후 다시 시도해주세요.".data

/-- Rate-limit message. -/
def msgRateLimit : List Char := "요청 한도를 초과했습니다. 잠시 후 다시 시도해주세요.".data

/-- Bad-request message. -/
def msgBadRequest : List Char := "잘못된 요청입니다. 입력을 확인해주세요.".data

/-- The extraction route's catch block: map a thrown error to a response,
keeping the raw detail in `details`. -/
def extractCatch (e : JsError) : ApiResp :=
  if msgIncludes e "429".data then .err 429 msgRateLimit (some (jsDetails e))
  else if e.status = some 400 || msgIncludes e "400".data then
    .err 400 msgBadRequest (some (jsDetails e))
  else .err 500 msgGeneric (some (jsDetails e))

/-- The error `JSON.parse` throws on unparseable input (a `SyntaxError`; it
has no `status` property and its message mentions neither 429 nor 400). -/
def jsonSyntaxError : JsError :=
  ⟨none, some "Unexpected token".data, "SyntaxError".data⟩

/-- The extraction route handler.  `upstream` is the text-completion
service: given the user message it returns response text or throws.  The
second component counts upstream invocations. -/
def extractEndpoint (input : PromptInput)
    (upstream : List Char → Except JsError (List Char))
    (currentDate : List Char) : ApiResp × Nat :=
  match input with
  | .missing => (.err 400 msgBadInput none, 0)
  | .nonString => (.err 400 msgBadInput none, 0)
  | .str s0 =>
    if s0.isEmpty then (.err 400 msgBadInput none, 0)
    else
      let prompt := normalizePrompt s0
      if prompt.length < 2 then (.err 400 msgTooShort none, 0)
      else if 500 < prompt.length then (.err 400 msgTooLong none, 0)
      else
        match upstream prompt with
        | .error e => (extractCatch e, 1)
        | .ok txt =>
          match parseLlm txt with
          | none => (extractCatch jsonSyntaxError, 1)
          | some todo =>
            (.ok (Json.obj [(("todo".data : List Char), postProcessTodo todo prompt currentDate)]), 1)

/-! ## The analysis route (`app/api/analyze-todos/route.ts`, `POST`) -/

/-- The `due_time` key. -/
def keyDueTime : List Char := "due_time".data

/-- The `completed` key. -/
def keyCompleted : List Char := "completed".data

/-- The `category` key. -/
def keyCategory : List Char := "category".data

/-- The `created_at` key. -/
def keyCreatedAt : List Char := "created_at".data

/-- The fields kept by the outgoing-message projection, in source order. -/
def projKeys : List (List Char) :=
  [keyTitle, keyPriority, keyDueDate, keyDueTime, keyCompleted, keyCategory, keyCreatedAt]

/-- The projection applied to each todo before serialization: keep only the
seven listed fields; absent (undefined) fields are omitted by
`JSON.stringify`. -/
def projectTodo (t : Json) : Json :=
  Json.obj (projKeys.filterMap fun k => (jget t k).map fun v => (k, v))

/-- `JSON.stringify(todos.map(...))`. -/
def todosPayload (todos : List Json) : List Char :=
  stringifyJson (Json.arr (todos.map projectTodo))

/-- The human-readable timeframe label. -/
def timeframeText (tf : Option (List Char)) : List Char :=
  if tf = some "today".data then "오늘 하루".data else "이번 주".data

/-- The user message sent to the upstream service by the analysis route. -/
def analyzeMessage (todos : List Json) (tf : Option (List Char)) : List Char :=
  "Here is my todo list for ".data ++ timeframeText tf ++ ": ".data ++
    todosPayload todos ++ ". Please analyze it.".data

/-- The canned empty-state analysis returned without any upstream call. -/
def cannedEmptyAnalysis : Json :=
  Json.obj
    [("summary".data, .str "분석할 할 일이 아직 없습니다. 새로운 할 일을 추가해보세요!".data),
     ("urgentTasks".data, .arr []),
     ("insights".data, .arr [.str "할 일을 추가하면 AI가 분석해드립니다.".data]),
     ("recommendations".data, .arr [.str "먼저 오늘 해야 할 일을 기록하는 것부터 시작해보세요.".data])]

/-- Analysis route error messages. -/
def msgBadTodos : List Char := "할 일 목록 데이터가 올바르지 않습니다.".data

/-- Analysis catch-block message. -/
def msgAnalyzeFail : List Char := "AI 분석 중 오류가 발생했습니다. 잠시 후 다시 시도해주세요.".data

/-- The analysis route handler.  `todos` is the request body's `todos` field
(`none` models absence); the second component counts upstream invocations. -/
def analyzeEndpoint (todos : Option Json) (tf : Option (List Char))
    (upstream : List Char → Except JsError (List Char)) : ApiResp × Nat :=
  match todos with
  | some (Json.arr l) =>
    if l.isEmpty then (.ok cannedEmptyAnalysis, 0)
    else
      match upstream (analyzeMessage l tf) with
      | .error e => (.err 500 msgAnalyzeFail e.message, 1)
      | .ok txt =>
        match parseLlm txt with
        | none => (.err 500 msgAnalyzeFail jsonSyntaxError.message, 1)
        | some analysis => (.ok analysis, 1)
  | _ => (.err 400 msgBadTodos none, 0)

/-! ## The form-side priority normalization (`TodoForm.tsx`, `handleAiGenerate`) -/

/-- ASCII lowercasing, the fragment of `toLowerCase` relevant here. -/
def toLowerL (s : List Char) : List Char := s.map Char.toLower

/-- The recognized priority values checked by the form. -/
def priorityList : List (List Char) := ["high".data, "medium".data, "low".data]

/-- The route-side priority defaulting, as a function of the field value. -/
def apiDefaultPriority (p : Option Json) : Option Json :=
  if jsFalsy p then some (.str "medium".data) else p

/-- The form-side priority validation: start from `"medium"`; if the field
is truthy, lowercase it and accept it only when recognized.  `none` models
the `TypeError` thrown by `toLowerCase` on a truthy non-string. -/
def formPriority (p : Option Json) : Option (List Char) :=
  match p with
  | none => some "medium".data
  | some .null => some "medium".data
  | some (.bool false) => some "medium".data
  | some (.bool true) => none
  | some (.num lex) => if numLexIsZero lex then some "medium".data else none
  | some (.arr _) => none
  | some (.obj _) => none
  | some (.str s) =>
    if s.isEmpty then some "medium".data
    else if priorityList.contains (toLowerL s) then some (toLowerL s)
    else some "medium".data

/-! ## Structural predicates used by the response-parse round-trip proof -/

/-- Character classes a JSON value can start with. -/
def startChar (c : Char) : Bool :=
  c = '{' || c = '[' || c = '"' || c = 't' || c = 'f' || c = 'n' || c = '-' || c.isDigit

/-- Character classes a JSON value always ends with. -/
def endChar (c : Char) : Bool :=
  c = '}' || c = ']' || c = '"' || c = 'e' || c = 'l' || c.isDigit

/-- Characters that could extend a JSON number lexeme to the right. -/
def numContChar (c : Char) : Bool :=
  c.isDigit || c = '.' || c = 'e' || c = 'E' || c = '+' || c = '-'

/-- A continuation is safe when it cannot extend a number lexeme. -/
def safeTailB (z : List Char) : Bool :=
  match z.head? with
  | none => true
  | some c => !numContChar c

/-- The quote-alternation structure of text consumed by the JSON parser:
a concatenation of single non-backtick characters and complete string
literals whose bodies contain no raw newline.  This is exactly what makes
the code-fence markers unable to occur inside parseable JSON text. -/
inductive Alt : List Char → Prop where
  | nil : Alt []
  | chr (c : Char) (h : c ≠ btChar) : Alt [c]
  | lit (s : List Char) (h : '\n' ∉ s) : Alt ('"' :: (s ++ ['"']))
  | app (a b : List Char) (ha : Alt a) (hb : Alt b) : Alt (a ++ b)

/-- Specification of a successful `parseVal`: the input splits into leading
JSON whitespace, a consumed segment `C`, and the remainder; `C` is nonempty,
starts with a value-start character, ends with a value-end character, has
the quote-alternation structure, and the parse is local: with enough fuel,
the same consumed segment followed by any safe continuation parses to the
same value. -/
def ValSpec (cs : List Char) (v : Json) (r : List Char) : Prop :=
  ∃ w C, cs = w ++ C ++ r ∧ (∀ c ∈ w, isWs c = true) ∧ C ≠ [] ∧
    (∀ c0, C.head? = some c0 → startChar c0 = true) ∧
    (∀ cl, C.getLast? = some cl → endChar cl = true) ∧
    Alt C ∧
    (∀ g z, safeTailB z = true → 3 * C.length < g →
      parseVal g ((w ++ C) ++ z) = some (v, z))

/-- Specification of a successful `parseMembers` run (after a `{`). -/
def MemSpec (cs : List Char) (acc : List (List Char × Json)) (v : Json)
    (r : List Char) : Prop :=
  ∃ C, cs = C ++ r ∧ C ≠ [] ∧ Alt C ∧ C.getLast? = some '}' ∧
    (∃ w0 C0, C = w0 ++ '"' :: C0 ∧ (∀ c ∈ w0, isWs c = true)) ∧
    (∀ g z, 3 * C.length < g → parseMembers g (C ++ z) acc = some (v, z))

/-- Specification of a successful `parseElems` run (after a `[`). -/
def ElemSpec (cs : List Char) (acc : List Json) (v : Json) (r : List Char) : Prop :=
  ∃ C, cs = C ++ r ∧ C ≠ [] ∧ Alt C ∧ C.getLast? = some ']' ∧
    (∃ w0 c0 C0, C = w0 ++ c0 :: C0 ∧ (∀ c ∈ w0, isWs c = true) ∧ startChar c0 = true) ∧
    (∀ g z, 3 * C.length < g → parseElems g (C ++ z) acc = some (v, z))

/-! ## Basic list and whitespace lemmas -/

theorem startsWithL_append (p z : List Char) : startsWithL p (p ++ z) = true := by
  induction p with
  | nil => rfl
  | cons c cs ih => simp [startsWithL, ih]

theorem startsWithL_iff (p l : List Char) :
    startsWithL p l = true ↔ ∃ z, l = p ++ z := by
  constructor
  · intro h
    induction p generalizing l with
    | nil => exact ⟨l, rfl⟩
    | cons c cs ih =>
      cases l with
      | nil => simp [startsWithL] at h
      | cons d ds =>
        simp only [startsWithL, Bool.and_eq_true, decide_eq_true_eq] at h
        obtain ⟨z, hz⟩ := ih ds h.2
        exact ⟨z, by simp [h.1, hz]⟩
  · rintro ⟨z, rfl⟩; exact startsWithL_append p z

theorem startsWithL_get (p l : List Char) (h : startsWithL p l = true) :
    ∀ i, i < p.length → l.get? i = p.get? i := by
  obtain ⟨z, rfl⟩ := (startsWithL_iff p l).1 h
  intro i hi
  exact List.get?_append hi

theorem skipWs_ws_append (w l : List Char) (h : ∀ c ∈ w, isWs c = true) :
    skipWs (w ++ l) = skipWs l := by
  induction w with
  | nil => rfl
  | cons c cs ih =>
    have hc := h c (by simp)
    simp only [List.cons_append, skipWs, hc, if_true]
    exact ih fun x hx => h x (by simp [hx])

theorem skipWs_cons_not_ws (c : Char) (l : List Char) (h : isWs c = false) :
    skipWs (c :: l) = c :: l := by
  simp [skipWs, h]

theorem skipWs_decomp (l : List Char) :
    ∃ w, l = w ++ skipWs l ∧ ∀ c ∈ w, isWs c = true := by
  induction l with
  | nil => exact ⟨[], rfl, by simp⟩
  | cons c cs ih =>
    by_cases h : isWs c = true
    · obtain ⟨w, hw, hws⟩ := ih
      refine ⟨c :: w, ?_, ?_⟩
      · simp only [skipWs, h, if_true, List.cons_append]
        exact congrArg (c :: ·) hw
      · intro x hx
        rcases List.mem_cons.1 hx with rfl | hx'
        · exact h
        · exact hws x hx'
    · refine ⟨[], ?_, by simp⟩
      simp only [List.nil_append, skipWs, h]
      simp

theorem skipWs_all_ws (l : List Char) (h : skipWs l = []) : ∀ c ∈ l, isWs c = true := by
  induction l with
  | nil => simp
  | cons c cs ih =>
    intro x hx
    by_cases hc : isWs c = true
    · simp only [skipWs, hc, if_true] at h
      rcases List.mem_cons.1 hx with rfl | hx'
      · exact hc
      · exact ih h x hx'
    · simp only [skipWs, hc] at h
      simp at h

theorem dropWhile_all_append (p : Char → Bool) (w x : List Char)
    (h : ∀ c ∈ w, p c = true) : List.dropWhile p (w ++ x) = List.dropWhile p x := by
  induction w with
  | nil => rfl
  | cons c cs ih =>
    have hc := h c (by simp)
    simp only [List.cons_append, List.dropWhile_cons, hc, if_true]
    exact ih fun y hy => h y (by simp [hy])

theorem dropWhile_head_not (p : Char → Bool) (x : List Char)
    (h : ∀ c, x.head? = some c → p c = false) : List.dropWhile p x = x := by
  cases x with
  | nil => rfl
  | cons c cs =>
    have := h c rfl
    simp [List.dropWhile_cons, this]

theorem dropWhile_all_nil (p : Char → Bool) (w : List Char)
    (h : ∀ c ∈ w, p c = true) : List.dropWhile p w = [] := by
  have := dropWhile_all_append p w [] h
  simpa using this

theorem jsTrim_decomp (w m r : List Char) (hw : ∀ c ∈ w, isJsWs c = true)
    (hr : ∀ c ∈ r, isJsWs c = true)
    (hm1 : ∀ c, m.head? = some c → isJsWs c = false)
    (hm2 : ∀ c, m.getLast? = some c → isJsWs c = false) :
    jsTrim (w ++ m ++ r) = m := by
  cases m with
  | nil =>
    have h1 : List.dropWhile isJsWs (w ++ [] ++ r) = [] := by
      apply dropWhile_all_nil
      intro c hc
      simp only [List.append_nil] at hc
      rcases List.mem_append.1 hc with h | h
      exacts [hw c h, hr c h]
    unfold jsTrim
    rw [h1]
    rfl
  | cons c0 m0 =>
    have hc0 : isJsWs c0 = false := hm1 c0 rfl
    have h1 : List.dropWhile isJsWs (w ++ (c0 :: m0) ++ r) = c0 :: (m0 ++ r) := by
      rw [List.append_assoc, dropWhile_all_append _ _ _ hw]
      simp [List.dropWhile_cons, hc0]
    have h2 : (c0 :: (m0 ++ r)).reverse = r.reverse ++ (c0 :: m0).reverse := by
      simp
    have h3 : List.dropWhile isJsWs (r.reverse ++ (c0 :: m0).reverse) = (c0 :: m0).reverse := by
      rw [dropWhile_all_append _ _ _ (fun c hc => hr c (List.mem_reverse.1 hc))]
      exact dropWhile_head_not _ _ (fun c hc => hm2 c (by rwa [List.head?_reverse] at hc))
    unfold jsTrim
    rw [h1, h2, h3, List.reverse_reverse]

/-! ## Object field lookup and update -/

theorem lookup_setField_self (fs : List (List Char × Json)) (k : List Char) (v : Json) :
    lookupField (setField fs k v) k = some v := by
  induction fs with
  | nil => simp [setField, lookupField]
  | cons kv rest ih =>
    obtain ⟨k', v'⟩ := kv
    by_cases h : k' = k
    · simp [setField, h, lookupField]
    · simp [setField, h, lookupField, ih]

theorem lookup_setField_other (fs : List (List Char × Json)) (k k' : List Char) (v : Json)
    (h : k' ≠ k) : lookupField (setField fs k v) k' = lookupField fs k' := by
  have h' : k ≠ k' := Ne.symm h
  induction fs with
  | nil => simp [setField, lookupField, h']
  | cons kv rest ih =>
    obtain ⟨k1, v1⟩ := kv
    by_cases h1 : k1 = k
    · subst h1
      simp [setField, lookupField, h']
    · simp only [setField, h1, if_false, lookupField]
      by_cases h2 : k1 = k'
      · simp [h2]
      · simp [h2, ih]

theorem jget_jset_self (fs : List (List Char × Json)) (k : List Char) (v : Json) :
    jget (jset (Json.obj fs) k v) k = some v := by
  simp [jset, jget, lookup_setField_self]

theorem jget_jset_other (j : Json) (k k' : List Char) (v : Json) (h : k' ≠ k) :
    jget (jset j k v) k' = jget j k' := by
  cases j <;> simp [jset, jget]
  exact lookup_setField_other _ _ _ _ h

theorem jset_obj_is_obj (fs : List (List Char × Json)) (k : List Char) (v : Json) :
    ∃ fs', jset (Json.obj fs) k v = Json.obj fs' := ⟨setField fs k v, rfl⟩

/-! ## Post-processing: key preservation -/

theorem jget_postPriority_other (j : Json) (k : List Char) (h : k ≠ keyPriority) :
    jget (postPriority j) k = jget j k := by
  unfold postPriority
  split
  · exact jget_jset_other _ _ _ _ h
  · rfl

theorem jget_postDueDate_other (j : Json) (cd k : List Char) (h : k ≠ keyDueDate) :
    jget (postDueDate j cd) k = jget j k := by
  unfold postDueDate
  repeat first
    | rfl
    | exact jget_jset_other _ _ _ _ h
    | split

theorem jget_postTitle_other (j : Json) (p k : List Char)
    (h1 : k ≠ keyTitle) (h2 : k ≠ keyDesc) :
    jget (postTitle j p) k = jget j k := by
  unfold postTitle
  split
  · exact jget_jset_other _ _ _ _ h1
  · split
    · split
      · rw [jget_jset_other _ _ _ _ h1]
        split
        · exact jget_jset_other _ _ _ _ h2
        · rfl
      · rfl
    · rfl

/-! ## Claim C1: validation failures reject with 400 and no upstream call -/

/-- C1: for every request whose prompt is missing, not a string, or whose
normalized prompt has length outside [2, 500], the extraction endpoint
answers with a 400 validation error and never invokes the upstream
service. -/
theorem claim_C1 (inp : PromptInput) (upstream : List Char → Except JsError (List Char))
    (cd : List Char)
    (h : match inp with
         | .missing => True
         | .nonString => True
         | .str s => (normalizePrompt s).length < 2 ∨ 500 < (normalizePrompt s).length) :
    ∃ msg, extractEndpoint inp upstream cd = (.err 400 msg none, 0) := by
  cases inp with
  | missing => exact ⟨msgBadInput, rfl⟩
  | nonString => exact ⟨msgBadInput, rfl⟩
  | str s =>
    by_cases he : s.isEmpty = true
    · exact ⟨msgBadInput, by simp [extractEndpoint, he]⟩
    · rcases h with h | h
      · exact ⟨msgTooShort, by simp [extractEndpoint, he, h]⟩
      · have h2 : ¬ ((normalizePrompt s).length < 2) := by omega
        exact ⟨msgTooLong, by simp [extractEndpoint, he, h, h2]⟩

/-- Witness for C1 at the concrete prompt `"a"` (normalized length 1). -/
theorem claim_C1_witness :
    ((normalizePrompt "a".data).length < 2 ∨ 500 < (normalizePrompt "a".data).length) ∧
    ∃ msg, extractEndpoint (PromptInput.str "a".data) (fun _ => .ok []) [] =
      (.err 400 msg none, 0) :=
  ⟨by decide, claim_C1 (PromptInput.str "a".data) (fun _ => .ok []) [] (by decide)⟩

/-! ## Claim C2: past due dates are corrected to the current date -/

theorem parseTimePart_lt (l : List Char) (ms : Nat) (h : parseTimePart l = some ms) :
    ms < 86400000 := by
  unfold parseTimePart at h
  split at h
  · simp only [Option.some.injEq] at h
    omega
  · split at h
    · split at h
      · split at h
        · simp only [Option.some.injEq] at h
          rename_i hhnn _
          simp only [Bool.and_eq_true, decide_eq_true_eq] at hhnn
          omega
        · split at h
          · simp only [Option.some.injEq, Bool.and_eq_true, decide_eq_true_eq] at *
            omega
          · exact absurd h (by simp)
        · exact absurd h (by simp)
      · exact absurd h (by simp)
    · exact absurd h (by simp)
  · exact absurd h (by simp)

theorem parseIso_ms_lt (l : List Char) (d : Int) (ms : Nat)
    (h : parseIso l = some (d, ms)) : ms < 86400000 := by
  unfold parseIso at h
  split at h
  · split at h
    · split at h
      · split at h
        · simp only [Option.some.injEq, Prod.mk.injEq] at h
          rename_i ht
          have := parseTimePart_lt _ _ ht
          omega
        · exact absurd h (by simp)
      · exact absurd h (by simp)
    · exact absurd h (by simp)
  · exact absurd h (by simp)

theorem parseIso_ne_nil (l : List Char) (x : Int × Nat) (h : parseIso l = some x) :
    l ≠ [] := by
  intro he
  subst he
  simp [parseIso] at h

/-- C2: a parsed due date whose calendar day is strictly before the current
date is overwritten with the current date by post-processing; a due date on
or after the current date is left unchanged. -/
theorem claim_C2 (fs : List (List Char × Json)) (prompt cd ds : List Char)
    (dday : Int) (dms : Nat) (tday : Int)
    (hget : jget (Json.obj fs) keyDueDate = some (.str ds))
    (hdue : parseIso ds = some (dday, dms))
    (hcd : parseIso cd = some (tday, 0)) :
    (dday < tday →
      jget (postProcessTodo (Json.obj fs) prompt cd) keyDueDate = some (.str cd)) ∧
    (tday ≤ dday →
      jget (postProcessTodo (Json.obj fs) prompt cd) keyDueDate = some (.str ds)) := by
  have hpre : jget (postPriority (postTitle (Json.obj fs) prompt)) keyDueDate =
      some (.str ds) := by
    rw [jget_postPriority_other _ _ (by decide),
        jget_postTitle_other _ _ _ (by decide) (by decide), hget]
  obtain ⟨fsT, hfsT⟩ :
      ∃ fsT, postPriority (postTitle (Json.obj fs) prompt) = Json.obj fsT := by
    rcases hT : postPriority (postTitle (Json.obj fs) prompt) with _ | _ | _ | _ | _ | fsT
    all_goals rw [hT] at hpre
    all_goals first
      | exact ⟨fsT, rfl⟩
      | simp [jget] at hpre
  have hdsne : ds ≠ [] := parseIso_ne_nil _ _ hdue
  have hfalsy : jsFalsy (some (Json.str ds)) = false := by
    cases ds with
    | nil => exact absurd rfl hdsne
    | cons c cs => simp [jsFalsy, List.isEmpty]
  have hmslt : dms < 86400000 := parseIso_ms_lt _ _ _ hdue
  have hdm : dateValueMs ds = some (dday * 86400000 + (dms : Int)) := by
    simp [dateValueMs, hdue]
  have htm : dateValueMs cd = some (tday * 86400000) := by
    simp [dateValueMs, hcd]
  unfold postProcessTodo
  rw [hfsT] at hpre ⊢
  constructor
  · intro hlt
    have hcmp : dday * 86400000 + (dms : Int) < tday * 86400000 := by
      have : (dms : Int) < 86400000 := by exact_mod_cast hmslt
      nlinarith [hlt]
    unfold postDueDate
    rw [hpre]
    simp only [hfalsy, Bool.false_eq_true, if_false, hdm, htm]
    rw [if_pos hcmp]
    exact jget_jset_self _ _ _
  · intro hge
    have hcmp : ¬ (dday * 86400000 + (dms : Int) < tday * 86400000) := by
      have : (0:Int) ≤ (dms : Int) := by positivity
      nlinarith [hge]
    unfold postDueDate
    rw [hpre]
    simp only [hfalsy, Bool.false_eq_true, if_false, hdm, htm]
    rw [if_neg hcmp]
    exact hpre

/-- Witness for C2: a due date of 2024-01-01 (day 19723) against a current
date of 2024-01-05 (day 19727) is overwritten with the current date. -/
theorem claim_C2_witness :
    parseIso "2024-01-01".data = some (19723, 0) ∧
    jget (postProcessTodo (Json.obj [(keyDueDate, Json.str "2024-01-01".data)])
        "x".data "2024-01-05".data) keyDueDate = some (Json.str "2024-01-05".data) :=
  ⟨by decide,
   (claim_C2 [(keyDueDate, Json.str "2024-01-01".data)] "x".data "2024-01-05".data
      "2024-01-01".data 19723 0 19727 rfl (by decide) (by decide)).1 (by decide)⟩

/-! ## Claim C6: a missing title is filled from the normalized input -/

/-- C6: when the parsed extraction object has no `title`, post-processing
sets the title to the first 30 characters of the normalized input followed
by an ellipsis when the normalized input is longer than 30 characters, and
to the whole normalized input otherwise. -/
theorem claim_C6 (fs : List (List Char × Json)) (raw cd : List Char)
    (hti : jget (Json.obj fs) keyTitle = none) :
    jget (postProcessTodo (Json.obj fs) (normalizePrompt raw) cd) keyTitle =
      some (.str (if 30 < (normalizePrompt raw).length
                  then (normalizePrompt raw).take 30 ++ dots
                  else normalizePrompt raw)) ∧
    (30 < (normalizePrompt raw).length → ((normalizePrompt raw).take 30).length = 30) := by
  constructor
  · have h1 : jget (postTitle (Json.obj fs) (normalizePrompt raw)) keyTitle =
        some (.str (if 30 < (normalizePrompt raw).length
                    then (normalizePrompt raw).take 30 ++ dots
                    else normalizePrompt raw)) := by
      unfold postTitle
      rw [hti]
      simp only [jsFalsy, if_true]
      exact jget_jset_self _ _ _
    unfold postProcessTodo
    rw [jget_postDueDate_other _ _ _ (by decide), jget_postPriority_other _ _ (by decide), h1]
  · intro h
    simp only [List.length_take]
    omega

/-- Witness for C6 with an empty object and a 31-character normalized
input. -/
theorem claim_C6_witness :
    jget (Json.obj ([] : List (List Char × Json))) keyTitle = none ∧
    jget (postProcessTodo (Json.obj []) (normalizePrompt "abcdefghijklmnopqrstuvwxyz01234".data) [])
        keyTitle =
      some (.str (if 30 < (normalizePrompt "abcdefghijklmnopqrstuvwxyz01234".data).length
                  then (normalizePrompt "abcdefghijklmnopqrstuvwxyz01234".data).take 30 ++ dots
                  else normalizePrompt "abcdefghijklmnopqrstuvwxyz01234".data)) :=
  ⟨rfl, (claim_C6 [] "abcdefghijklmnopqrstuvwxyz01234".data [] rfl).1⟩

/-! ## Claim C7: over-long titles are truncated, preserving the original -/

/-- C7: when the parsed title is longer than 50 characters, post-processing
moves the full original title into an empty description (leaving a non-empty
description unchanged) and truncates the title to exactly its first 47
characters plus an ellipsis. -/
theorem claim_C7 (fs : List (List Char × Json)) (prompt cd t : List Char)
    (hti : jget (Json.obj fs) keyTitle = some (.str t))
    (hlen : 50 < t.length) :
    (jsFalsy (jget (Json.obj fs) keyDesc) = true →
       jget (postProcessTodo (Json.obj fs) prompt cd) keyDesc = some (.str t)) ∧
    (∀ d, jget (Json.obj fs) keyDesc = some (.str d) → d ≠ [] →
       jget (postProcessTodo (Json.obj fs) prompt cd) keyDesc = some (.str d)) ∧
    jget (postProcessTodo (Json.obj fs) prompt cd) keyTitle =
      some (.str (t.take 47 ++ dots)) ∧
    (t.take 47).length = 47 := by
  have htne : t ≠ [] := by
    intro he
    rw [he] at hlen
    simp at hlen
  have hfalsyT : jsFalsy (jget (Json.obj fs) keyTitle) = false := by
    rw [hti]
    cases t with
    | nil => exact absurd rfl htne
    | cons c cs => simp [jsFalsy, List.isEmpty]
  have hT : postTitle (Json.obj fs) prompt =
      jset (if jsFalsy (jget (Json.obj fs) keyDesc) then
              jset (Json.obj fs) keyDesc (.str t) else (Json.obj fs))
        keyTitle (.str (t.take 47 ++ dots)) := by
    unfold postTitle
    rw [hfalsyT, hti]
    simp only [Bool.false_eq_true, if_false, hlen, if_pos]
  refine ⟨?_, ?_, ?_, ?_⟩
  · intro hdesc
    unfold postProcessTodo
    rw [jget_postDueDate_other _ _ _ (by decide), jget_postPriority_other _ _ (by decide),
        hT, hdesc, if_pos rfl]
    rw [jget_jset_other _ _ _ _ (by decide)]
    exact jget_jset_self _ _ _
  · intro d hd hdne
    have hdesc : jsFalsy (jget (Json.obj fs) keyDesc) = false := by
      rw [hd]
      cases d with
      | nil => exact absurd rfl hdne
      | cons c cs => simp [jsFalsy, List.isEmpty]
    unfold postProcessTodo
    rw [jget_postDueDate_other _ _ _ (by decide), jget_postPriority_other _ _ (by decide),
        hT, hdesc]
    simp only [Bool.false_eq_true, if_false]
    rw [jget_jset_other _ _ _ _ (by decide)]
    exact hd
  · unfold postProcessTodo
    rw [jget_postDueDate_other _ _ _ (by decide), jget_postPriority_other _ _ (by decide), hT]
    by_cases hdesc : jsFalsy (jget (Json.obj fs) keyDesc) = true
    · rw [hdesc, if_pos rfl]
      exact jget_jset_self _ _ _
    · rw [if_neg (by simpa using hdesc)]
      exact jget_jset_self _ _ _
  · simp only [List.length_take]
    omega

/-- Witness for C7: a 51-character title with no description is moved into
the description and truncated. -/
theorem claim_C7_witness :
    jget (Json.obj [(keyTitle, Json.str "abcdefghijklmnopqrstuvwxyzabcdefghijklmnopqrstuvwxy".data)]) keyTitle =
      some (.str "abcdefghijklmnopqrstuvwxyzabcdefghijklmnopqrstuvwxy".data) ∧
    jget (postProcessTodo
        (Json.obj [(keyTitle, Json.str "abcdefghijklmnopqrstuvwxyzabcdefghijklmnopqrstuvwxy".data)])
        "p".data []) keyDesc =
      some (.str "abcdefghijklmnopqrstuvwxyzabcdefghijklmnopqrstuvwxy".data) :=
  ⟨rfl,
   (claim_C7 [(keyTitle, Json.str "abcdefghijklmnopqrstuvwxyzabcdefghijklmnopqrstuvwxy".data)]
      "p".data [] "abcdefghijklmnopqrstuvwxyzabcdefghijklmnopqrstuvwxy".data rfl
      (by decide)).1 rfl⟩

/-! ## Claim C3: the post-processed priority is always high, medium or low -/

/-- C3: after the route's defaulting and the form's case-insensitive
validation, the priority is always one of high/medium/low: a missing (falsy)
priority becomes medium, an unrecognized string falls back to medium, and a
string recognized case-insensitively is kept (lowercased). -/
theorem claim_C3 (p : Option Json)
    (h : p = none ∨ p = some Json.null ∨ ∃ s, p = some (Json.str s)) :
    ∃ r, formPriority (apiDefaultPriority p) = some r ∧
      (r = "high".data ∨ r = "medium".data ∨ r = "low".data) ∧
      (jsFalsy p = true → r = "medium".data) ∧
      (∀ s, p = some (Json.str s) → priorityList.contains (toLowerL s) = false →
        r = "medium".data) ∧
      (∀ s, p = some (Json.str s) → priorityList.contains (toLowerL s) = true →
        r = toLowerL s) := by
  rcases h with rfl | rfl | ⟨s, rfl⟩
  · refine ⟨"medium".data, by decide, by decide, fun _ => rfl, ?_, ?_⟩
    · intro s hs
      cases hs
    · intro s hs
      cases hs
  · refine ⟨"medium".data, by decide, by decide, fun _ => rfl, ?_, ?_⟩
    · intro s hs
      cases hs
    · intro s hs
      cases hs
  · by_cases he : s.isEmpty = true
    · have hs0 : s = [] := by
        cases s with
        | nil => rfl
        | cons c cs => simp [List.isEmpty] at he
      subst hs0
      refine ⟨"medium".data, by decide, by decide, fun _ => rfl, ?_, ?_⟩
      · intro s' hs' _
        cases hs'
        rfl
      · intro s' hs' hc
        cases hs'
        exact absurd hc (by decide)
    · have he' : s.isEmpty = false := by simpa using he
      have h1 : apiDefaultPriority (some (Json.str s)) = some (Json.str s) := by
        unfold apiDefaultPriority
        simp [jsFalsy, he']
      by_cases hc : priorityList.contains (toLowerL s) = true
      · refine ⟨toLowerL s, ?_, ?_, ?_, ?_, ?_⟩
        · rw [h1]
          simp only [formPriority]
          rw [if_neg (by simp [he']), if_pos hc]
        · have hmem : toLowerL s ∈ priorityList := by
            simpa [List.contains] using hc
          simpa [priorityList] using hmem
        · intro hf
          simp [jsFalsy, he'] at hf
        · intro s' hs' hcf
          cases hs'
          rw [hcf] at hc
          cases hc
        · intro s' hs' _
          cases hs'
          rfl
      · have hc' : priorityList.contains (toLowerL s) = false := by simpa using hc
        refine ⟨"medium".data, ?_, by simp, ?_, ?_, ?_⟩
        · rw [h1]
          simp only [formPriority]
          rw [if_neg (by simp [he']), if_neg hc]
        · intro hf
          simp [jsFalsy, he'] at hf
        · intro s' hs' _
          rfl
        · intro s' hs' hctrue
          cases hs'
          rw [hc'] at hctrue
          cases hctrue

/-- Witness for C3 at the unrecognized upstream value `"URGENT"`. -/
theorem claim_C3_witness :
    ∃ r, formPriority (apiDefaultPriority (some (Json.str "URGENT".data))) = some r ∧
      (r = "high".data ∨ r = "medium".data ∨ r = "low".data) ∧
      (jsFalsy (some (Json.str "URGENT".data)) = true → r = "medium".data) ∧
      (∀ s, some (Json.str "URGENT".data) = some (Json.str s) →
        priorityList.contains (toLowerL s) = false → r = "medium".data) ∧
      (∀ s, some (Json.str "URGENT".data) = some (Json.str s) →
        priorityList.contains (toLowerL s) = true → r = toLowerL s) :=
  claim_C3 (some (Json.str "URGENT".data)) (Or.inr (Or.inr ⟨"URGENT".data, rfl⟩))

/-- The route's priority defaulting is exactly the field-level description
used above: looking up `priority` after `postPriority` yields
`apiDefaultPriority` of the original field. -/
theorem postPriority_field (fs : List (List Char × Json)) :
    jget (postPriority (Json.obj fs)) keyPriority =
      apiDefaultPriority (jget (Json.obj fs) keyPriority) := by
  unfold postPriority apiDefaultPriority
  split
  · exact jget_jset_self _ _ _
  · rfl

/-! ## Claim C9: extraction failures map to 400 / 429 / 500 with details -/

/-- C9: the extraction route's error handler returns an `{error, details}`
body whose status is 429 for rate-limit-marked errors, 400 for bad-request
errors, and 500 otherwise — always one of {400, 429, 500} — with the raw
error detail preserved in `details`; an upstream throw surfaces through the
endpoint exactly this way. -/
theorem claim_C9 (e : JsError) :
    (msgIncludes e "429".data = true →
      extractCatch e = .err 429 msgRateLimit (some (jsDetails e))) ∧
    (msgIncludes e "429".data = false →
      (e.status = some 400 ∨ msgIncludes e "400".data = true) →
      extractCatch e = .err 400 msgBadRequest (some (jsDetails e))) ∧
    (msgIncludes e "429".data = false → ¬ e.status = some 400 →
      msgIncludes e "400".data = false →
      extractCatch e = .err 500 msgGeneric (some (jsDetails e))) ∧
    (∃ st m, extractCatch e = ApiResp.err st m (some (jsDetails e)) ∧
      (st = 400 ∨ st = 429 ∨ st = 500)) ∧
    (∀ s cd, ¬ s.isEmpty = true → ¬ (normalizePrompt s).length < 2 →
      ¬ 500 < (normalizePrompt s).length →
      extractEndpoint (.str s) (fun _ => Except.error e) cd = (extractCatch e, 1)) := by
  refine ⟨?_, ?_, ?_, ?_, ?_⟩
  · intro h429
    unfold extractCatch
    rw [if_pos h429]
  · intro h429 h400
    unfold extractCatch
    rw [if_neg (by simp [h429])]
    rw [if_pos (by rcases h400 with h | h <;> simp [h])]
  · intro h429 hst h400
    unfold extractCatch
    rw [if_neg (by simp [h429])]
    rw [if_neg (by simp [hst, h400])]
  · by_cases h429 : msgIncludes e "429".data = true
    · exact ⟨429, msgRateLimit, by unfold extractCatch; rw [if_pos h429], by simp⟩
    · by_cases h400 : (decide (e.status = some 400) || msgIncludes e "400".data) = true
      · refine ⟨400, msgBadRequest, ?_, by simp⟩
        unfold extractCatch
        rw [if_neg h429, if_pos h400]
      · refine ⟨500, msgGeneric, ?_, by simp⟩
        unfold extractCatch
        rw [if_neg h429, if_neg h400]
  · intro s cd hne h2 h3
    simp only [extractEndpoint, hne, if_false, h2, h3]
    simp

/-- Witness for C9 with a rate-limit-marked error. -/
theorem claim_C9_witness :
    msgIncludes ⟨none, some "got status 429".data, "E".data⟩ "429".data = true ∧
    extractCatch ⟨none, some "got status 429".data, "E".data⟩ =
      .err 429 msgRateLimit (some (jsDetails ⟨none, some "got status 429".data, "E".data⟩)) :=
  ⟨by decide, (claim_C9 ⟨none, some "got status 429".data, "E".data⟩).1 (by decide)⟩

/-! ## Claim C4: empty task list short-circuits to the canned analysis -/

/-- C4: analyzing an empty task list returns the canned empty-state response
— empty urgent-task list, exactly one insight and exactly one
recommendation — and the upstream service is invoked zero times. -/
theorem claim_C4 (tf : Option (List Char)) (upstream : List Char → Except JsError (List Char)) :
    analyzeEndpoint (some (Json.arr [])) tf upstream = (.ok cannedEmptyAnalysis, 0) ∧
    jget cannedEmptyAnalysis "urgentTasks".data = some (.arr []) ∧
    (∃ i, jget cannedEmptyAnalysis "insights".data = some (.arr [i])) ∧
    (∃ r, jget cannedEmptyAnalysis "recommendations".data = some (.arr [r])) ∧
    (∃ s, jget cannedEmptyAnalysis "summary".data = some (.str s)) :=
  ⟨rfl, rfl, ⟨.str "할 일을 추가하면 AI가 분석해드립니다.".data, rfl⟩,
   ⟨.str "먼저 오늘 해야 할 일을 기록하는 것부터 시작해보세요.".data, rfl⟩,
   ⟨"분석할 할 일이 아직 없습니다. 새로운 할 일을 추가해보세요!".data, rfl⟩⟩

/-! ## Claim C8: the outgoing analysis message depends only on the projection -/

/-- C8: two task lists that agree pointwise on the seven projected fields
(title, priority, due_date, due_time, completed, category, created_at)
produce identical outgoing upstream messages, whatever their other fields
(in particular `description`) contain. -/
theorem claim_C8 (l1 l2 : List Json) (tf : Option (List Char))
    (h : List.Forall₂ (fun a b => ∀ k ∈ projKeys, jget a k = jget b k) l1 l2) :
    analyzeMessage l1 tf = analyzeMessage l2 tf := by
  have hproj : ∀ a b : Json, (∀ k ∈ projKeys, jget a k = jget b k) →
      projectTodo a = projectTodo b := by
    intro a b hab
    unfold projectTodo
    congr 1
    exact List.filterMap_congr fun k hk => by rw [hab k hk]
  have hmap : l1.map projectTodo = l2.map projectTodo := by
    induction h with
    | nil => rfl
    | cons hab hrest ih =>
      simp only [List.map_cons, ih, List.cons.injEq, and_true]
      exact hproj _ _ hab
  unfold analyzeMessage todosPayload
  rw [hmap]

/-- Witness for C8: two singleton task lists differing only in their
`description` fields produce the same outgoing message. -/
theorem claim_C8_witness :
    analyzeMessage [Json.obj [(keyTitle, .str "a".data), (keyDesc, .str "secret".data)]]
        (some "today".data) =
      analyzeMessage [Json.obj [(keyTitle, .str "a".data), (keyDesc, .str "other".data)]]
        (some "today".data) :=
  claim_C8 _ _ _ (List.Forall₂.cons
    (by intro k hk; fin_cases hk <;> rfl)
    List.Forall₂.nil)

/-! ## Claim C10: analyze returns the parsed upstream value unvalidated -/

/-- C10: for a non-empty task list, whenever the upstream response parses
(directly or after fence stripping), the analysis route returns exactly the
parsed value with no schema validation or defaulting — in particular it may
be an object lacking all four analysis fields, as the witness shows. -/
theorem claim_C10 (l : List Json) (tf : Option (List Char)) (txt : List Char) (j : Json)
    (hne : l ≠ []) (hparse : parseLlm txt = some j) :
    analyzeEndpoint (some (Json.arr l)) tf (fun _ => Except.ok txt) = (.ok j, 1) := by
  have hE : l.isEmpty = false := by
    cases l with
    | nil => exact absurd rfl hne
    | cons a as => rfl
  simp only [analyzeEndpoint, hE, Bool.false_eq_true, if_false, hparse]

/-- Witness for C10: the upstream text `{}` parses to an empty object (no
`summary`, `urgentTasks`, `insights` or `recommendations` fields), and the
route returns it as-is. -/
theorem claim_C10_witness :
    parseLlm "{}".data = some (Json.obj []) ∧
    analyzeEndpoint (some (Json.arr [Json.obj []])) (some "today".data)
        (fun _ => Except.ok "{}".data) = (.ok (Json.obj []), 1) :=
  ⟨by rfl, claim_C10 [Json.obj []] (some "today".data) "{}".data (Json.obj [])
    (by simp) (by rfl)⟩

/-! ## Alt: basic facts -/

theorem alt_chars (l : List Char) (h : ∀ c ∈ l, c ≠ btChar) : Alt l := by
  induction l with
  | nil => exact Alt.nil
  | cons c cs ih =>
    have : Alt [c] := Alt.chr c (h c (by simp))
    have hcs : Alt cs := ih fun x hx => h x (by simp [hx])
    exact Alt.app [c] cs this hcs

theorem alt_head (l : List Char) (h : Alt l) : ∀ c, l.head? = some c → c ≠ btChar := by
  induction h with
  | nil => intro c hc; cases hc
  | chr c0 h0 => intro c hc; cases hc; exact h0
  | lit s hs =>
    intro c hc
    cases hc
    decide
  | app a b ha hb iha ihb =>
    intro c hc
    cases a with
    | nil => exact ihb c (by simpa using hc)
    | cons a0 as => exact iha c (by simpa using hc)

/-! ## stripFences: unfolding and refutation lemmas -/

theorem fenceOpen_get0 : fenceOpen.get? 0 = some btChar := by decide

theorem fenceOpen_get7 : fenceOpen.get? 7 = some '\n' := by decide

theorem fenceClose_get0 : fenceClose.get? 0 = some '\n' := by decide

theorem fenceClose_get1 : fenceClose.get? 1 = some btChar := by decide

theorem strip_nil : stripFences [] = [] := by
  rw [stripFences.eq_def]
  rw [if_neg (by decide : ¬ startsWithL fenceOpen [] = true),
      if_neg (by decide : ¬ startsWithL fenceClose [] = true)]

theorem strip_open (l : List Char) (h : startsWithL fenceOpen l = true) :
    stripFences l = stripFences (l.drop 8) := by
  rw [stripFences.eq_def, if_pos h]

theorem strip_close (l : List Char) (h1 : startsWithL fenceOpen l = false)
    (h2 : startsWithL fenceClose l = true) :
    stripFences l = stripFences (l.drop 4) := by
  rw [stripFences.eq_def, if_neg (by simp [h1]), if_pos h2]

theorem strip_nomatch (c : Char) (cs : List Char)
    (h1 : startsWithL fenceOpen (c :: cs) = false)
    (h2 : startsWithL fenceClose (c :: cs) = false) :
    stripFences (c :: cs) = c :: stripFences cs := by
  rw [stripFences.eq_def, if_neg (by simp [h1]), if_neg (by simp [h2])]

theorem no_open_of_head (c : Char) (z : List Char) (h : c ≠ btChar) :
    startsWithL fenceOpen (c :: z) = false := by
  cases hb : startsWithL fenceOpen (c :: z) with
  | false => rfl
  | true =>
    have h0 := startsWithL_get _ _ hb 0 (by decide)
    rw [fenceOpen_get0] at h0
    simp only [List.get?] at h0
    injection h0 with h0
    exact absurd h0 h

theorem no_close_of_head (c : Char) (z : List Char) (h : c ≠ '\n') :
    startsWithL fenceClose (c :: z) = false := by
  cases hb : startsWithL fenceClose (c :: z) with
  | false => rfl
  | true =>
    have h0 := startsWithL_get _ _ hb 0 (by decide)
    rw [fenceClose_get0] at h0
    simp only [List.get?] at h0
    injection h0 with h0
    exact absurd h0 h

theorem no_close_newline (z : List Char)
    (hz : ∀ c, z.head? = some c → c ≠ btChar) :
    startsWithL fenceClose ('\n' :: z) = false := by
  cases hb : startsWithL fenceClose ('\n' :: z) with
  | false => rfl
  | true =>
    have h1 := startsWithL_get _ _ hb 1 (by decide)
    rw [fenceClose_get1] at h1
    cases z with
    | nil => cases h1
    | cons z0 zs =>
      simp only [List.get?] at h1
      injection h1 with h1
      exact absurd h1 (hz z0 rfl)

theorem fenceOpen_len : fenceOpen.length = 8 := by decide

theorem no_open_in_body (s z : List Char) (hs : '\n' ∉ s) :
    startsWithL fenceOpen (s ++ '"' :: z) = false := by
  cases hb : startsWithL fenceOpen (s ++ '"' :: z) with
  | false => rfl
  | true =>
    exfalso
    have h7 := startsWithL_get _ _ hb 7 (by decide)
    rw [fenceOpen_get7] at h7
    by_cases hlen : 7 < s.length
    · rw [List.get?_append hlen] at h7
      exact hs (List.get?_mem h7)
    · have hle : s.length ≤ 7 := by omega
      have hq : (s ++ '"' :: z).get? s.length = some '"' := by
        rw [List.get?_append_right (le_refl _)]
        simp
      have hqp := startsWithL_get _ _ hb s.length (by rw [fenceOpen_len]; omega)
      rw [hq] at hqp
      have hmem : '"' ∈ fenceOpen := List.get?_mem hqp.symm
      exact absurd hmem (by decide)

theorem no_close_in_body (s z : List Char) (hs : '\n' ∉ s) :
    startsWithL fenceClose (s ++ '"' :: z) = false := by
  cases hb : startsWithL fenceClose (s ++ '"' :: z) with
  | false => rfl
  | true =>
    exfalso
    have h0 := startsWithL_get _ _ hb 0 (by decide)
    rw [fenceClose_get0] at h0
    cases s with
    | nil =>
      simp only [List.nil_append, List.get?] at h0
      injection h0 with h0
      exact absurd h0 (by decide)
    | cons c cs =>
      simp only [List.cons_append, List.get?] at h0
      injection h0 with h0
      exact hs (by rw [← h0]; simp)

theorem strip_body (s : List Char) (hs : '\n' ∉ s) :
    ∀ z, stripFences (s ++ '"' :: z) = s ++ ('"' :: stripFences z) := by
  induction s with
  | nil =>
    intro z
    simp only [List.nil_append]
    exact strip_nomatch _ _ (no_open_of_head _ _ (by decide)) (no_close_of_head _ _ (by decide))
  | cons c s' ih =>
    intro z
    have hs' : '\n' ∉ s' := fun hx => hs (by simp [hx])
    have h1 : startsWithL fenceOpen ((c :: s') ++ '"' :: z) = false :=
      no_open_in_body (c :: s') z hs
    have h2 : startsWithL fenceClose ((c :: s') ++ '"' :: z) = false :=
      no_close_in_body (c :: s') z hs
    simp only [List.cons_append] at h1 h2 ⊢
    rw [strip_nomatch _ _ h1 h2, ih hs' z]

theorem strip_alt (a : List Char) (ha : Alt a) :
    ∀ z, (∀ c, z.head? = some c → c ≠ btChar) →
    stripFences (a ++ z) = a ++ stripFences z := by
  induction ha with
  | nil =>
    intro z hz
    simp
  | chr c h =>
    intro z hz
    simp only [List.cons_append, List.nil_append]
    by_cases hc : c = '\n'
    · subst hc
      rw [strip_nomatch _ _ (no_open_of_head _ _ h) (no_close_newline _ hz)]
    · rw [strip_nomatch _ _ (no_open_of_head _ _ h) (no_close_of_head _ _ hc)]
  | lit s hs =>
    intro z hz
    have heq : ('"' :: (s ++ ['"'])) ++ z = '"' :: (s ++ '"' :: z) := by simp
    rw [heq]
    rw [strip_nomatch _ _ (no_open_of_head _ _ (by decide)) (no_close_of_head _ _ (by decide))]
    rw [strip_body s hs z]
    simp

  | app a b hA hB ihA ihB =>
    intro z hz
    have hbz : ∀ c, (b ++ z).head? = some c → c ≠ btChar := by
      intro c hc
      cases b with
      | nil => exact hz c (by simpa using hc)
      | cons b0 bs =>
        simp only [List.cons_append, List.head?] at hc
        injection hc with hc
        exact hc ▸ alt_head _ hB b0 rfl
    rw [List.append_assoc, ihA (b ++ z) hbz, ihB z hz, List.append_assoc]

theorem strip_fenceClose : stripFences fenceClose = [] := by
  rw [strip_close _ (by decide) (by decide)]
  have h4 : fenceClose.drop 4 = [] := by decide
  rw [h4, strip_nil]

theorem strip_wrap (t : List Char) (ht : Alt t) :
    stripFences (wrapFence t) = t := by
  unfold wrapFence
  rw [strip_open _ (by rw [List.append_assoc]; exact startsWithL_append _ _)]
  have hdrop : (fenceOpen ++ t ++ fenceClose).drop 8 = t ++ fenceClose := by
    rw [List.append_assoc, ← fenceOpen_len, List.drop_left]
  rw [hdrop]
  rw [strip_alt _ ht fenceClose (by
    intro c hc
    have hhd : fenceClose.head? = some '\n' := by decide
    rw [hhd] at hc
    injection hc with hc
    rw [← hc]
    decide)]
  rw [strip_fenceClose, List.append_nil]

/-! ## parseStrBody: consumed-segment specification -/

theorem hexVal_ne_nl (c : Char) (n : Nat) (h : hexVal c = some n) : c ≠ '\n' := by
  intro he
  subst he
  rw [show hexVal '\n' = none from by decide] at h
  cases h

theorem escChar_ne_nl (e ec : Char) (h : escChar e = some ec) : e ≠ '\n' := by
  intro he
  subst he
  rw [show escChar '\n' = none from by decide] at h
  cases h

theorem psb_quote (cs : List Char) : parseStrBody ('"' :: cs) = some ([], cs) := by
  rw [parseStrBody.eq_def]
  simp

theorem psb_u (h1 h2 h3 h4 : Char) (cs3 : List Char) (a b c4 d : Nat)
    (ha : hexVal h1 = some a) (hb : hexVal h2 = some b)
    (hc : hexVal h3 = some c4) (hd : hexVal h4 = some d) :
    parseStrBody ('\\' :: 'u' :: h1 :: h2 :: h3 :: h4 :: cs3) =
      (parseStrBody cs3).map fun r =>
        (Char.ofNat (((a * 16 + b) * 16 + c4) * 16 + d) :: r.1, r.2) := by
  rw [parseStrBody.eq_def]
  simp [ha, hb, hc, hd]

theorem psb_esc (e : Char) (cs2 : List Char) (ec : Char) (hne : ¬ e = 'u')
    (hesc : escChar e = some ec) :
    parseStrBody ('\\' :: e :: cs2) = (parseStrBody cs2).map fun r => (ec :: r.1, r.2) := by
  rw [parseStrBody.eq_def]
  simp [hne, hesc]

theorem psb_plain (c : Char) (cs : List Char) (h1 : ¬ c = '"') (h2 : ¬ c = '\\')
    (h3 : ¬ c.toNat < 32) :
    parseStrBody (c :: cs) = (parseStrBody cs).map fun r => (c :: r.1, r.2) := by
  rw [parseStrBody.eq_def]
  simp [h1, h2, h3]

theorem psb_u_eval (h1 h2 h3 h4 : Char) (cs3 : List Char) :
    parseStrBody ('\\' :: 'u' :: h1 :: h2 :: h3 :: h4 :: cs3) =
      (match hexVal h1, hexVal h2, hexVal h3, hexVal h4 with
       | some a, some b, some c4, some d =>
         (parseStrBody cs3).map fun r =>
           (Char.ofNat (((a * 16 + b) * 16 + c4) * 16 + d) :: r.1, r.2)
       | _, _, _, _ => none) := by
  rw [parseStrBody.eq_def]
  simp

theorem parseStrBody_spec : ∀ (cs : List Char), ∀ d r, parseStrBody cs = some (d, r) →
    ∃ s, cs = s ++ '"' :: r ∧ '\n' ∉ s ∧
      ∀ z, parseStrBody (s ++ '"' :: z) = some (d, z) := by
  intro cs
  induction cs using parseStrBody.induct with
  | case1 =>
    intro d r h
    rw [parseStrBody.eq_def] at h
    cases h
  | case2 cs2 =>
    intro d r h
    rw [psb_quote] at h
    simp only [Option.some.injEq, Prod.mk.injEq] at h
    obtain ⟨rfl, rfl⟩ := h
    exact ⟨[], rfl, by simp, fun z => psb_quote z⟩
  | case3 _ =>
    intro d r h
    rw [parseStrBody.eq_def] at h
    simp at h
  | case4 h1 h2 h3 h4 cs3 a b c4 d4 hd4 hc4 hb4 ha4 hne ih =>
    intro d r h
    rw [psb_u h1 h2 h3 h4 cs3 a b c4 d4 ha4 hb4 hc4 hd4] at h
    cases hrec : parseStrBody cs3 with
    | none => rw [hrec] at h; cases h
    | some pr =>
      obtain ⟨p1, p2⟩ := pr
      rw [hrec] at h
      simp only [Option.map_some', Option.some.injEq, Prod.mk.injEq] at h
      obtain ⟨hd1, hr1⟩ := h
      obtain ⟨s', hs1, hs2, hloc⟩ := ih p1 p2 hrec
      refine ⟨'\\' :: 'u' :: h1 :: h2 :: h3 :: h4 :: s', ?_, ?_, ?_⟩
      · rw [hs1, ← hr1]
        simp
      · intro hmem
        simp only [List.mem_cons] at hmem
        rcases hmem with h | h | h | h | h | h | h
        · exact absurd h.symm (by decide)
        · exact absurd h.symm (by decide)
        · exact absurd h.symm (Ne.symm (hexVal_ne_nl _ _ ha4)).symm
        · exact absurd h.symm (Ne.symm (hexVal_ne_nl _ _ hb4)).symm
        · exact absurd h.symm (Ne.symm (hexVal_ne_nl _ _ hc4)).symm
        · exact absurd h.symm (Ne.symm (hexVal_ne_nl _ _ hd4)).symm
        · exact hs2 h
      · intro z
        have : ('\\' :: 'u' :: h1 :: h2 :: h3 :: h4 :: s') ++ '"' :: z =
            '\\' :: 'u' :: h1 :: h2 :: h3 :: h4 :: (s' ++ '"' :: z) := by simp
        rw [this, psb_u h1 h2 h3 h4 _ a b c4 d4 ha4 hb4 hc4 hd4, hloc z]
        simp [← hd1]
  | case5 h1 h2 h3 h4 cs3 hnone hne =>
    intro d r h
    rw [psb_u_eval] at h
    cases ha : hexVal h1 with
    | none => rw [ha] at h; simp at h
    | some a =>
      cases hb : hexVal h2 with
      | none => rw [ha, hb] at h; simp at h
      | some b =>
        cases hc : hexVal h3 with
        | none => rw [ha, hb, hc] at h; simp at h
        | some c4 =>
          cases hd : hexVal h4 with
          | none => rw [ha, hb, hc, hd] at h; simp at h
          | some d4 => exact (hnone a b c4 d4 ha hb hc hd).elim
  | case6 cs2 hshape hne =>
    intro d r h
    cases cs2 with
    | nil => rw [parseStrBody.eq_def] at h; simp at h
    | cons x1 t1 =>
      cases t1 with
      | nil => rw [parseStrBody.eq_def] at h; simp at h
      | cons x2 t2 =>
        cases t2 with
        | nil => rw [parseStrBody.eq_def] at h; simp at h
        | cons x3 t3 =>
          cases t3 with
          | nil => rw [parseStrBody.eq_def] at h; simp at h
          | cons x4 t4 => exact (hshape x1 x2 x3 x4 t4 rfl).elim
  | case7 e cs2 hne ec hesc hq ih =>
    intro d r h
    rw [psb_esc e cs2 ec hne hesc] at h
    cases hrec : parseStrBody cs2 with
    | none => rw [hrec] at h; cases h
    | some pr =>
      obtain ⟨p1, p2⟩ := pr
      rw [hrec] at h
      simp only [Option.map_some', Option.some.injEq, Prod.mk.injEq] at h
      obtain ⟨hd1, hr1⟩ := h
      obtain ⟨s', hs1, hs2, hloc⟩ := ih p1 p2 hrec
      refine ⟨'\\' :: e :: s', ?_, ?_, ?_⟩
      · rw [hs1, ← hr1]
        simp
      · intro hmem
        simp only [List.mem_cons] at hmem
        rcases hmem with h | h | h
        · exact absurd h.symm (by decide)
        · exact absurd h.symm (escChar_ne_nl _ _ hesc)
        · exact hs2 h
      · intro z
        have : ('\\' :: e :: s') ++ '"' :: z = '\\' :: e :: (s' ++ '"' :: z) := by simp
        rw [this, psb_esc e _ ec hne hesc, hloc z]
        simp [← hd1]
  | case8 e cs2 hne hesc hq =>
    intro d r h
    rw [parseStrBody.eq_def] at h
    simp only [if_neg (by decide : ¬ '\\' = '"'), if_pos rfl, if_neg hne, hesc] at h
    cases h
  | case9 e cs2 h1 h2 h3 =>
    intro d r h
    rw [parseStrBody.eq_def] at h
    simp only [if_neg h1, if_neg h2, if_pos h3] at h
    cases h
  | case10 e cs2 h1 h2 h3 ih =>
    intro d r h
    rw [psb_plain e cs2 h1 h2 h3] at h
    cases hrec : parseStrBody cs2 with
    | none => rw [hrec] at h; cases h
    | some pr =>
      obtain ⟨p1, p2⟩ := pr
      rw [hrec] at h
      simp only [Option.map_some', Option.some.injEq, Prod.mk.injEq] at h
      obtain ⟨hd1, hr1⟩ := h
      obtain ⟨s', hs1, hs2, hloc⟩ := ih p1 p2 hrec
      refine ⟨e :: s', ?_, ?_, ?_⟩
      · rw [hs1, ← hr1]
        simp
      · intro hmem
        simp only [List.mem_cons] at hmem
        rcases hmem with h | h
        · subst h
          exact h3 (by decide)
        · exact hs2 h
      · intro z
        have : (e :: s') ++ '"' :: z = e :: (s' ++ '"' :: z) := by simp
        rw [this, psb_plain e _ h1 h2 h3, hloc z]
        simp [← hd1]

/-! ## Number lexeme specifications -/

theorem getLast?_append_ne (a b : List Char) (h : b ≠ []) :
    (a ++ b).getLast? = b.getLast? := by
  rw [List.getLast?_append]
  cases hb : b.getLast? with
  | none => exact absurd (List.getLast?_eq_none_iff.mp hb) h
  | some c => rfl

theorem mem_of_getLast?_eq (l : List Char) (c : Char) (h : l.getLast? = some c) : c ∈ l := by
  obtain ⟨ys, rfl⟩ := List.getLast?_eq_some_iff.mp h
  simp

theorem takeWhile_head_not (p : Char → Bool) (x : List Char)
    (h : ∀ c, x.head? = some c → p c = false) : x.takeWhile p = [] := by
  cases x with
  | nil => rfl
  | cons c cs => simp [List.takeWhile_cons, h c rfl]

theorem takeWhile_all_append (p : Char → Bool) (a b : List Char)
    (ha : ∀ c ∈ a, p c = true) (hb : ∀ c, b.head? = some c → p c = false) :
    (a ++ b).takeWhile p = a := by
  induction a with
  | nil => exact takeWhile_head_not p b hb
  | cons c cs ih =>
    simp only [List.cons_append, List.takeWhile_cons, ha c (by simp), if_true]
    rw [ih fun x hx => ha x (by simp [hx])]

theorem span_exact (p : Char → Bool) (a b : List Char)
    (ha : ∀ c ∈ a, p c = true) (hb : ∀ c, b.head? = some c → p c = false) :
    List.span p (a ++ b) = (a, b) := by
  rw [List.span_eq_take_drop, takeWhile_all_append p a b ha hb,
      dropWhile_all_append p a b ha, dropWhile_head_not p b hb]

theorem span_spec (p : Char → Bool) (l a b : List Char) (h : List.span p l = (a, b)) :
    l = a ++ b ∧ (∀ c ∈ a, p c = true) ∧ (∀ c, b.head? = some c → p c = false) := by
  rw [List.span_eq_take_drop] at h
  simp only [Prod.mk.injEq] at h
  obtain ⟨rfl, rfl⟩ := h
  refine ⟨(List.takeWhile_append_dropWhile p l).symm, fun c hc => List.mem_takeWhile_imp hc, ?_⟩
  intro c hc
  induction l with
  | nil => cases hc
  | cons x xs ih =>
    by_cases hx : p x = true
    · simp only [List.dropWhile_cons, hx, if_true] at hc
      exact ih hc
    · simp only [List.dropWhile_cons, hx] at hc
      simp only [Bool.false_eq_true, if_false, List.head?] at hc
      injection hc with hc
      subst hc
      simpa using hx

theorem isDigit_not_jsws (c : Char) (hd : c.isDigit = true) : isJsWs c = false := by
  cases hb : isJsWs c with
  | false => rfl
  | true =>
    exfalso
    simp only [isJsWs, Bool.or_eq_true, decide_eq_true_eq] at hb
    rcases hb with ((((((((h|h)|h)|h)|h)|h)|h)|h)|h)|h <;> subst h <;> exact absurd hd (by decide)

theorem numContChar_class (c : Char) (h : numContChar c = true) :
    isJsWs c = false ∧ c ≠ btChar := by
  simp only [numContChar, Bool.or_eq_true, decide_eq_true_eq] at h
  rcases h with ((((h|h)|h)|h)|h)|h
  · exact ⟨isDigit_not_jsws c h, fun he => absurd h (by rw [he]; decide)⟩
  all_goals subst h
  all_goals exact ⟨by decide, by decide⟩

theorem isWs_of_not_jsws (c : Char) (h : isJsWs c = false) : isWs c = false := by
  cases hb : isWs c with
  | false => rfl
  | true =>
    exfalso
    simp only [isWs, Bool.or_eq_true, decide_eq_true_eq] at hb
    rcases hb with ((h|h)|h)|h <;> subst h <;> simp [isJsWs] at h

theorem digit_not_sign (c : Char) (hd : c.isDigit = true) :
    (c = '+' || c = '-') = false := by
  cases hb : (c = '+' || c = '-') with
  | false => rfl
  | true =>
    exfalso
    simp only [Bool.or_eq_true, decide_eq_true_eq] at hb
    rcases hb with h | h <;> subst h <;> exact absurd hd (by decide)

theorem safeTail_not_digit (z : List Char) (hz : safeTailB z = true) :
    ∀ c, z.head? = some c → Char.isDigit c = false := by
  intro c hc
  cases z with
  | nil => cases hc
  | cons z0 zs =>
    injection hc with hc
    simp only [safeTailB, List.head?, Bool.not_eq_true'] at hz
    rw [← hc]
    cases hb : z0.isDigit with
    | false => rfl
    | true => simp [numContChar, hb] at hz

theorem numExp_empty_loc (acc z : List Char) (hz : safeTailB z = true) :
    numExp acc z = some (acc, z) := by
  cases z with
  | nil => rfl
  | cons c zs =>
    have hcE : ¬ ((c = 'e' || c = 'E') = true) := by
      intro hE
      simp only [Bool.or_eq_true, decide_eq_true_eq] at hE
      simp only [safeTailB, List.head?, Bool.not_eq_true'] at hz
      rcases hE with rfl | rfl <;> simp [numContChar] at hz
    simp only [numExp]
    rw [if_neg hcE]

theorem ends_digit_of_append (pre ds : List Char) (hne : ds ≠ [])
    (hds : ∀ c ∈ ds, Char.isDigit c = true) :
    ∃ cl, (pre ++ ds).getLast? = some cl ∧ cl.isDigit = true := by
  rw [getLast?_append_ne _ _ hne]
  cases hgl : ds.getLast? with
  | none => exact absurd (List.getLast?_eq_none_iff.mp hgl) hne
  | some cl => exact ⟨cl, rfl, hds cl (mem_of_getLast?_eq _ _ hgl)⟩

theorem numExp_spec (acc l lex r : List Char) (h : numExp acc l = some (lex, r)) :
    ∃ e, l = e ++ r ∧ lex = acc ++ e ∧ (∀ c ∈ e, numContChar c = true) ∧
      (e = [] ∨ ∃ cl, e.getLast? = some cl ∧ cl.isDigit = true) ∧
      (∀ c0, e.head? = some c0 → c0 = 'e' ∨ c0 = 'E') ∧
      (∀ z, safeTailB z = true → numExp acc (e ++ z) = some (lex, z)) := by
  cases l with
  | nil =>
    simp only [numExp, Option.some.injEq, Prod.mk.injEq] at h
    obtain ⟨rfl, rfl⟩ := h
    refine ⟨[], by simp, by simp, by simp, Or.inl rfl, ?_,
      fun z hz => numExp_empty_loc acc z hz⟩
    intro c0 hc0
    cases hc0
  | cons c r0 =>
    by_cases hcE : (c = 'e' || c = 'E') = true
    · have hcnum : numContChar c = true := by
        have := hcE
        simp only [Bool.or_eq_true, decide_eq_true_eq] at this
        rcases this with rfl | rfl <;> decide
      cases r0 with
      | nil =>
        simp only [numExp, if_pos hcE, List.span_eq_take_drop, List.takeWhile_nil,
          List.dropWhile_nil] at h
        exact absurd h (by simp)
      | cons s r' =>
        by_cases hs : (s = '+' || s = '-') = true
        · have hsnum : numContChar s = true := by
            have := hs
            simp only [Bool.or_eq_true, decide_eq_true_eq] at this
            rcases this with rfl | rfl <;> decide
          obtain ⟨ds, r2, hspan⟩ : ∃ ds r2, List.span Char.isDigit r' = (ds, r2) :=
            ⟨_, _, rfl⟩
          obtain ⟨hr', hds, hr2⟩ := span_spec _ _ _ _ hspan
          simp only [numExp, if_pos hcE, if_pos hs, hspan] at h
          cases ds with
          | nil => simp at h
          | cons d0 ds' =>
            simp only [Option.some.injEq, Prod.mk.injEq] at h
            obtain ⟨hlex, hr⟩ := h
            subst hr
            refine ⟨c :: s :: d0 :: ds', by simp [hr'], by simp [← hlex], ?_, ?_, ?_, ?_⟩
            · intro x hx
              rcases List.mem_cons.1 hx with rfl | hx
              · exact hcnum
              rcases List.mem_cons.1 hx with rfl | hx
              · exact hsnum
              · have := hds x hx
                simp [numContChar, this]
            · refine Or.inr ?_
              have : c :: s :: d0 :: ds' = [c, s] ++ (d0 :: ds') := rfl
              rw [this]
              exact ends_digit_of_append [c, s] (d0 :: ds') (by simp) hds
            · intro c0 hc0
              injection hc0 with hc0
              have := hcE
              simp only [Bool.or_eq_true, decide_eq_true_eq] at this
              rcases this with h' | h' <;> rw [← hc0, h'] <;> simp
            · intro z hz
              have hspanz : List.span Char.isDigit ((d0 :: ds') ++ z) = (d0 :: ds', z) :=
                span_exact _ _ _ hds (safeTail_not_digit z hz)
              simp only [List.cons_append] at hspanz
              simp only [List.cons_append, numExp, if_pos hcE, if_pos hs, hspanz, ← hlex,
                List.nil_append, List.singleton_append]
        · obtain ⟨ds, r2, hspan⟩ : ∃ ds r2, List.span Char.isDigit (s :: r') = (ds, r2) :=
            ⟨_, _, rfl⟩
          obtain ⟨hr', hds, hr2⟩ := span_spec _ _ _ _ hspan
          simp only [numExp, if_pos hcE, if_neg hs, hspan] at h
          cases ds with
          | nil => simp at h
          | cons d0 ds' =>
            simp only [Option.some.injEq, Prod.mk.injEq] at h
            obtain ⟨hlex, hr⟩ := h
            subst hr
            refine ⟨c :: d0 :: ds', by simp [← hr'], by simp [← hlex], ?_, ?_, ?_, ?_⟩
            · intro x hx
              rcases List.mem_cons.1 hx with rfl | hx
              · exact hcnum
              · have := hds x hx
                simp [numContChar, this]
            · refine Or.inr ?_
              have : c :: d0 :: ds' = [c] ++ (d0 :: ds') := rfl
              rw [this]
              exact ends_digit_of_append [c] (d0 :: ds') (by simp) hds
            · intro c0 hc0
              injection hc0 with hc0
              have := hcE
              simp only [Bool.or_eq_true, decide_eq_true_eq] at this
              rcases this with h' | h' <;> rw [← hc0, h'] <;> simp
            · intro z hz
              have hd0 : Char.isDigit d0 = true := hds d0 (by simp)
              have hspanz : List.span Char.isDigit ((d0 :: ds') ++ z) = (d0 :: ds', z) :=
                span_exact _ _ _ hds (safeTail_not_digit z hz)
              simp only [List.cons_append] at hspanz
              simp only [List.cons_append, numExp, if_pos hcE,
                if_neg (by simp [digit_not_sign d0 hd0] :
                  ¬ ((d0 = '+' || d0 = '-') = true)), hspanz, ← hlex,
                List.nil_append, List.singleton_append]
    · simp only [numExp, if_neg hcE, Option.some.injEq, Prod.mk.injEq] at h
      obtain ⟨rfl, rfl⟩ := h
      refine ⟨[], by simp, by simp, by simp, Or.inl rfl, ?_,
        fun z hz => numExp_empty_loc acc z hz⟩
      intro c0 hc0
      cases hc0

theorem safeTail_head (z : List Char) (hz : safeTailB z = true) :
    ∀ c, z.head? = some c → numContChar c = false := by
  intro c hc
  cases z with
  | nil => cases hc
  | cons z0 zs =>
    injection hc with hc
    simp only [safeTailB, List.head?, Bool.not_eq_true'] at hz
    rw [← hc]
    exact hz

theorem numFrac_not_dot (acc l : List Char) (h : ∀ c, l.head? = some c → ¬ c = '.') :
    numFrac acc l = numExp acc l := by
  cases l with
  | nil => rfl
  | cons c cs =>
    have hc := h c rfl
    simp only [numFrac]
    split
    · rename_i heq
      exfalso
      apply hc
      have hh := congrArg List.head? heq
      simp only [List.head?, Option.some.injEq] at hh
      exact hh
    · rfl

theorem numFrac_empty_loc (acc z : List Char) (hz : safeTailB z = true) :
    numFrac acc z = some (acc, z) := by
  rw [numFrac_not_dot acc z fun c hc heq => by
      have := safeTail_head z hz c hc
      rw [heq] at this
      exact absurd this (by decide)]
  exact numExp_empty_loc acc z hz

theorem numFrac_spec (acc l lex r : List Char) (h : numFrac acc l = some (lex, r)) :
    ∃ e, l = e ++ r ∧ lex = acc ++ e ∧ (∀ c ∈ e, numContChar c = true) ∧
      (e = [] ∨ ∃ cl, e.getLast? = some cl ∧ cl.isDigit = true) ∧
      (∀ c0, e.head? = some c0 → c0 = '.' ∨ c0 = 'e' ∨ c0 = 'E') ∧
      (∀ z, safeTailB z = true → numFrac acc (e ++ z) = some (lex, z)) := by
  by_cases hdot : ∃ cs, l = '.' :: cs
  · obtain ⟨cs, rfl⟩ := hdot
    simp only [numFrac] at h
    obtain ⟨ds, r2, hspan⟩ : ∃ ds r2, List.span Char.isDigit cs = (ds, r2) := ⟨_, _, rfl⟩
    obtain ⟨hcs, hds, hr2⟩ := span_spec _ _ _ _ hspan
    rw [hspan] at h
    cases ds with
    | nil => simp at h
    | cons d0 ds' =>
      obtain ⟨e2, hre, hlex2, hch2, hend2, hhd2, hloc2⟩ := numExp_spec _ _ _ _ h
      refine ⟨'.' :: ((d0 :: ds') ++ e2), ?_, ?_, ?_, ?_, ?_, ?_⟩
      · rw [hcs, hre]
        simp
      · rw [hlex2]
        simp
      · intro x hx
        rcases List.mem_cons.1 hx with rfl | hx
        · decide
        rcases List.mem_append.1 hx with hx | hx
        · exact (by simp [numContChar, hds x hx])
        · exact hch2 x hx
      · refine Or.inr ?_
        rcases hend2 with rfl | ⟨cl, hcl, hcld⟩
        · rw [List.append_nil]
          have : '.' :: (d0 :: ds') = ['.'] ++ (d0 :: ds') := rfl
          rw [this]
          exact ends_digit_of_append ['.'] (d0 :: ds') (by simp) hds
        · refine ⟨cl, ?_, hcld⟩
          have hne2 : e2 ≠ [] := by
            intro hh
            rw [hh] at hcl
            cases hcl
          have : '.' :: ((d0 :: ds') ++ e2) = ('.' :: (d0 :: ds')) ++ e2 := by simp
          rw [this, getLast?_append_ne _ _ hne2]
          exact hcl
      · intro c0 hc0
        injection hc0 with hc0
        exact Or.inl hc0.symm
      · intro z hz
        have hheadz : ∀ c0, (e2 ++ z).head? = some c0 → Char.isDigit c0 = false := by
          intro c0 hc0
          cases e2 with
          | nil => exact safeTail_not_digit z hz c0 (by simpa using hc0)
          | cons e0 es =>
            simp only [List.cons_append, List.head?] at hc0
            injection hc0 with hc0
            rcases hhd2 e0 rfl with h' | h' <;> rw [← hc0, h'] <;> decide
        have hspanz : List.span Char.isDigit ((d0 :: ds') ++ (e2 ++ z)) =
            (d0 :: ds', e2 ++ z) := span_exact _ _ _ hds hheadz
        simp only [List.cons_append] at hspanz
        have harr : ('.' :: ((d0 :: ds') ++ e2)) ++ z = '.' :: (d0 :: (ds' ++ (e2 ++ z))) := by
          simp
        rw [harr]
        simp only [numFrac, hspanz]
        exact hloc2 z hz
  · have hnd : ∀ c, l.head? = some c → ¬ c = '.' := by
      intro c hc heq
      cases l with
      | nil => cases hc
      | cons c0 cs =>
        injection hc with hc
        exact hdot ⟨cs, by rw [hc, heq]⟩
    rw [numFrac_not_dot acc l hnd] at h
    obtain ⟨e, hre, hlex, hch, hend, hhd, hloc⟩ := numExp_spec _ _ _ _ h
    refine ⟨e, hre, hlex, hch, hend, fun c0 hc0 => Or.inr (hhd c0 hc0), ?_⟩
    intro z hz
    rw [numFrac_not_dot acc (e ++ z) ?_]
    · exact hloc z hz
    · intro c hc heq
      cases e with
      | nil =>
        have := safeTail_head z hz c (by simpa using hc)
        rw [heq] at this
        exact absurd this (by decide)
      | cons e0 es =>
        simp only [List.cons_append, List.head?] at hc
        injection hc with hc
        rcases hhd e0 rfl with h' | h' <;> rw [← hc, h'] at heq <;> exact absurd heq (by decide)

theorem pnum_dash_nil : parseNum ['-'] = none := by
  simp [parseNum]

theorem pnum_dash_cons (c1 : Char) (r1 : List Char) : parseNum ('-' :: c1 :: r1) =
    (if c1 = '0' then numFrac ['-', '0'] r1
     else if c1.isDigit then
       match List.span Char.isDigit r1 with
       | (ds, r2) => numFrac ('-' :: c1 :: ds) r2
     else none) := by
  simp [parseNum]

theorem pnum_nodash (c : Char) (rest : List Char) (hdash : ¬ c = '-') :
    parseNum (c :: rest) =
      (if c = '0' then numFrac ['0'] rest
       else if c.isDigit then
         match List.span Char.isDigit rest with
         | (ds, r2) => numFrac (c :: ds) r2
       else none) := by
  simp only [parseNum]
  rw [if_neg hdash]

theorem parseNum_spec (l lex r : List Char) (h : parseNum l = some (lex, r)) :
    l = lex ++ r ∧ (∀ c ∈ lex, numContChar c = true) ∧
      (∃ cl, lex.getLast? = some cl ∧ cl.isDigit = true) ∧
      (∃ c0, lex.head? = some c0 ∧ (c0 = '-' ∨ c0.isDigit = true)) ∧
      (∀ z, safeTailB z = true → parseNum (lex ++ z) = some (lex, z)) := by
  cases l with
  | nil => simp [parseNum] at h
  | cons c rest =>
    by_cases hdash : c = '-'
    · subst hdash
      cases rest with
      | nil => rw [pnum_dash_nil] at h; cases h
      | cons c1 r1 =>
        rw [pnum_dash_cons] at h
        by_cases h0 : c1 = '0'
        · subst h0
          rw [if_pos rfl] at h
          obtain ⟨e, hre, hlex, hch, hend, hhd, hloc⟩ := numFrac_spec _ _ _ _ h
          simp only [List.cons_append, List.nil_append] at hlex
          refine ⟨?_, ?_, ?_, ?_, ?_⟩
          · rw [hre, hlex]
            simp
          · intro x hx
            rw [hlex] at hx
            rcases List.mem_cons.1 hx with rfl | hx
            · decide
            rcases List.mem_cons.1 hx with rfl | hx
            · decide
            · exact hch x hx
          · rw [hlex]
            rcases hend with rfl | ⟨cl, hcl, hcld⟩
            · exact ⟨'0', by simp, by decide⟩
            · have hne : e ≠ [] := by
                intro hh
                rw [hh] at hcl
                cases hcl
              refine ⟨cl, ?_, hcld⟩
              have hsh : '-' :: '0' :: e = ['-', '0'] ++ e := by simp
              rw [hsh, getLast?_append_ne _ _ hne]
              exact hcl
          · rw [hlex]
            exact ⟨'-', rfl, Or.inl rfl⟩
          · intro z hz
            rw [hlex]
            have hsh : ('-' :: '0' :: e) ++ z = '-' :: '0' :: (e ++ z) := by simp
            rw [hsh, pnum_dash_cons, if_pos rfl, hloc z hz, hlex]
        · by_cases hd : c1.isDigit = true
          · obtain ⟨ds, r2, hspan⟩ : ∃ ds r2, List.span Char.isDigit r1 = (ds, r2) :=
              ⟨_, _, rfl⟩
            obtain ⟨hr1, hds, hr2⟩ := span_spec _ _ _ _ hspan
            rw [if_neg h0, if_pos hd, hspan] at h
            obtain ⟨e, hre, hlex, hch, hend, hhd, hloc⟩ := numFrac_spec _ _ _ _ h
            simp only [List.cons_append, List.nil_append] at hlex
            refine ⟨?_, ?_, ?_, ?_, ?_⟩
            · rw [hre] at hr1
              rw [hlex, hr1]
              simp
            · intro x hx
              rw [hlex] at hx
              rcases List.mem_cons.1 hx with rfl | hx
              · decide
              rcases List.mem_cons.1 hx with rfl | hx
              · simp [numContChar, hd]
              rcases List.mem_append.1 hx with hx | hx
              · simp [numContChar, hds x hx]
              · exact hch x hx
            · rw [hlex]
              rcases hend with rfl | ⟨cl, hcl, hcld⟩
              · rw [List.append_nil]
                have hsh : '-' :: c1 :: ds = ['-'] ++ (c1 :: ds) := by simp
                rw [hsh]
                refine ends_digit_of_append ['-'] (c1 :: ds) (by simp) ?_
                intro x hx
                rcases List.mem_cons.1 hx with rfl | hx
                exacts [hd, hds x hx]
              · have hne : e ≠ [] := by
                  intro hh
                  rw [hh] at hcl
                  cases hcl
                refine ⟨cl, ?_, hcld⟩
                have hsh : '-' :: c1 :: (ds ++ e) = ('-' :: c1 :: ds) ++ e := by simp
                rw [hsh, getLast?_append_ne _ _ hne]
                exact hcl
            · rw [hlex]
              exact ⟨'-', rfl, Or.inl rfl⟩
            · intro z hz
              rw [hlex]
              have hheadz : ∀ x, (e ++ z).head? = some x → Char.isDigit x = false := by
                intro x hx
                cases e with
                | nil => exact safeTail_not_digit z hz x (by simpa using hx)
                | cons e0 es =>
                  simp only [List.cons_append, List.head?] at hx
                  injection hx with hx
                  rcases hhd e0 rfl with h' | h' | h' <;> rw [← hx, h'] <;> decide
              have hspanz : List.span Char.isDigit (ds ++ (e ++ z)) = (ds, e ++ z) :=
                span_exact _ _ _ hds hheadz
              have harr : ('-' :: c1 :: (ds ++ e)) ++ z = '-' :: c1 :: (ds ++ (e ++ z)) := by
                simp
              rw [harr, pnum_dash_cons, if_neg h0, if_pos hd]
              simp only [hspanz]
              rw [hloc z hz, ← hlex]
          · rw [if_neg h0, if_neg hd] at h
            cases h
    · by_cases h0 : c = '0'
      · subst h0
        rw [pnum_nodash '0' rest (by decide), if_pos rfl] at h
        obtain ⟨e, hre, hlex, hch, hend, hhd, hloc⟩ := numFrac_spec _ _ _ _ h
        simp only [List.cons_append, List.nil_append] at hlex
        refine ⟨?_, ?_, ?_, ?_, ?_⟩
        · rw [hre, hlex]
          simp
        · intro x hx
          rw [hlex] at hx
          rcases List.mem_cons.1 hx with rfl | hx
          · decide
          · exact hch x hx
        · rw [hlex]
          rcases hend with rfl | ⟨cl, hcl, hcld⟩
          · exact ⟨'0', by simp, by decide⟩
          · have hne : e ≠ [] := by
              intro hh
              rw [hh] at hcl
              cases hcl
            refine ⟨cl, ?_, hcld⟩
            have hsh : '0' :: e = ['0'] ++ e := by simp
            rw [hsh, getLast?_append_ne _ _ hne]
            exact hcl
        · rw [hlex]
          exact ⟨'0', rfl, Or.inr (by decide)⟩
        · intro z hz
          rw [hlex]
          have hsh : ('0' :: e) ++ z = '0' :: (e ++ z) := by simp
          rw [hsh, pnum_nodash '0' (e ++ z) (by decide), if_pos rfl, hloc z hz, hlex]
      · by_cases hd : c.isDigit = true
        · obtain ⟨ds, r2, hspan⟩ : ∃ ds r2, List.span Char.isDigit rest = (ds, r2) :=
            ⟨_, _, rfl⟩
          obtain ⟨hr1, hds, hr2⟩ := span_spec _ _ _ _ hspan
          rw [pnum_nodash c rest hdash, if_neg h0, if_pos hd, hspan] at h
          obtain ⟨e, hre, hlex, hch, hend, hhd, hloc⟩ := numFrac_spec _ _ _ _ h
          simp only [List.cons_append, List.nil_append] at hlex
          refine ⟨?_, ?_, ?_, ?_, ?_⟩
          · rw [hre] at hr1
            rw [hlex, hr1]
            simp
          · intro x hx
            rw [hlex] at hx
            rcases List.mem_cons.1 hx with rfl | hx
            · simp [numContChar, hd]
            rcases List.mem_append.1 hx with hx | hx
            · simp [numContChar, hds x hx]
            · exact hch x hx
          · rw [hlex]
            rcases hend with rfl | ⟨cl, hcl, hcld⟩
            · rw [List.append_nil]
              cases hds0 : ds with
              | nil => exact ⟨c, by simp [hds0], hd⟩
              | cons dd dds =>
                have hsh : c :: dd :: dds = [c] ++ (dd :: dds) := by simp
                rw [hsh]
                refine ends_digit_of_append [c] (dd :: dds) (by simp) ?_
                intro x hx
                rw [← hds0] at hx
                exact hds x hx
            · have hne : e ≠ [] := by
                intro hh
                rw [hh] at hcl
                cases hcl
              refine ⟨cl, ?_, hcld⟩
              have hsh : c :: (ds ++ e) = (c :: ds) ++ e := by simp
              rw [hsh, getLast?_append_ne _ _ hne]
              exact hcl
          · rw [hlex]
            exact ⟨c, rfl, Or.inr hd⟩
          · intro z hz
            rw [hlex]
            have hheadz : ∀ x, (e ++ z).head? = some x → Char.isDigit x = false := by
              intro x hx
              cases e with
              | nil => exact safeTail_not_digit z hz x (by simpa using hx)
              | cons e0 es =>
                simp only [List.cons_append, List.head?] at hx
                injection hx with hx
                rcases hhd e0 rfl with h' | h' | h' <;> rw [← hx, h'] <;> decide
            have hspanz : List.span Char.isDigit (ds ++ (e ++ z)) = (ds, e ++ z) :=
              span_exact _ _ _ hds hheadz
            have harr : (c :: (ds ++ e)) ++ z = c :: (ds ++ (e ++ z)) := by simp
            rw [harr, pnum_nodash c _ hdash, if_neg h0, if_pos hd]
            simp only [hspanz]
            rw [hloc z hz, hlex]
        · rw [pnum_nodash c rest hdash, if_neg h0, if_neg hd] at h
          cases h

/-! ## Character-class bridges and parseVal dispatch -/

theorem isWs_ne_bt (c : Char) (h : isWs c = true) : c ≠ btChar := by
  simp only [isWs, Bool.or_eq_true, decide_eq_true_eq] at h
  rcases h with ((h|h)|h)|h <;> subst h <;> decide

theorem isWs_not_numCont (c : Char) (h : isWs c = true) : numContChar c = false := by
  simp only [isWs, Bool.or_eq_true, decide_eq_true_eq] at h
  rcases h with ((h|h)|h)|h <;> subst h <;> decide

theorem digit_not_ws (c : Char) (h : c.isDigit = true) : isWs c = false := by
  cases hb : isWs c with
  | false => rfl
  | true =>
    simp only [isWs, Bool.or_eq_true, decide_eq_true_eq] at hb
    rcases hb with ((hb|hb)|hb)|hb <;> subst hb <;> exact absurd h (by decide)

theorem startChar_not_ws (c : Char) (h : startChar c = true) : isWs c = false := by
  simp only [startChar, Bool.or_eq_true, decide_eq_true_eq] at h
  rcases h with ((((((h|h)|h)|h)|h)|h)|h)|h
  case inr => exact digit_not_ws c h
  all_goals subst h
  all_goals decide

theorem safeTail_cons_ws (c : Char) (zs : List Char) (h : isWs c = true) :
    safeTailB (c :: zs) = true := by
  simp [safeTailB, isWs_not_numCont c h]

theorem pv_at (f : Nat) (cs : List Char) (c : Char) (rest : List Char)
    (hsc : skipWs cs = c :: rest) :
    parseVal (f + 1) cs =
      (if c = '{' then
        match skipWs rest with
        | '}' :: r2 => some (Json.obj [], r2)
        | _ => parseMembers f rest []
      else if c = '[' then
        match skipWs rest with
        | ']' :: r2 => some (Json.arr [], r2)
        | _ => parseElems f rest []
      else if c = '"' then (parseStrBody rest).map fun r => (Json.str r.1, r.2)
      else if c = 't' then
        if startsWithL "rue".data rest then some (Json.bool true, rest.drop 3) else none
      else if c = 'f' then
        if startsWithL "alse".data rest then some (Json.bool false, rest.drop 4) else none
      else if c = 'n' then
        if startsWithL "ull".data rest then some (Json.null, rest.drop 3) else none
      else if c = '-' || c.isDigit then
        (parseNum (c :: rest)).map fun r => (Json.num r.1, r.2)
      else none) := by
  simp only [parseVal, hsc]

theorem alt_ws (w : List Char) (h : ∀ c ∈ w, isWs c = true) : Alt w :=
  alt_chars w fun c hc => isWs_ne_bt c (h c hc)

theorem safeTail_ws_cons (w : List Char) (c : Char) (X : List Char)
    (hw : ∀ x ∈ w, isWs x = true) (hc : numContChar c = false) :
    safeTailB (w ++ c :: X) = true := by
  cases w with
  | nil => simp [safeTailB, hc]
  | cons w0 ws => exact safeTail_cons_ws w0 _ (hw w0 (by simp))

theorem skipWs_wcons (w : List Char) (c : Char) (X : List Char)
    (hw : ∀ x ∈ w, isWs x = true) (hc : isWs c = false) :
    skipWs (w ++ c :: X) = c :: X := by
  rw [skipWs_ws_append _ _ hw, skipWs_cons_not_ws _ _ hc]

theorem pm_eval (g : Nat) (cs : List Char) (acc : List (List Char × Json))
    (rest key r1 r2 : List Char) (vv : Json) (r3 : List Char)
    (h1 : skipWs cs = '"' :: rest)
    (h2 : parseStrBody rest = some (key, r1))
    (h3 : skipWs r1 = ':' :: r2)
    (h4 : parseVal g r2 = some (vv, r3)) :
    parseMembers (g + 1) cs acc =
      (match skipWs r3 with
       | ',' :: r4 => parseMembers g r4 (setField acc key vv)
       | '}' :: r4 => some (Json.obj (setField acc key vv), r4)
       | _ => none) := by
  simp only [parseMembers, h1, h2, h3, h4]

theorem pe_eval (g : Nat) (cs : List Char) (acc : List Json) (vv : Json) (r1 : List Char)
    (h1 : parseVal g cs = some (vv, r1)) :
    parseElems (g + 1) cs acc =
      (match skipWs r1 with
       | ',' :: r2 => parseElems g r2 (acc ++ [vv])
       | ']' :: r2 => some (Json.arr (acc ++ [vv]), r2)
       | _ => none) := by
  simp only [parseElems, h1]

theorem getLast?_concat_eq (a : List Char) (c : Char) : (a ++ [c]).getLast? = some c := by
  rw [getLast?_append_ne a [c] (by simp)]
  rfl

theorem val_step (f : Nat)
    (ihM : ∀ cs acc v r, parseMembers f cs acc = some (v, r) → MemSpec cs acc v r)
    (ihE : ∀ cs acc v r, parseElems f cs acc = some (v, r) → ElemSpec cs acc v r) :
    ∀ cs v r, parseVal (f + 1) cs = some (v, r) → ValSpec cs v r := by
  intro cs v r h
  cases hsc : skipWs cs with
  | nil =>
    exfalso
    rw [show parseVal (f + 1) cs = none from by simp only [parseVal, hsc]] at h
    exact Option.noConfusion h
  | cons c rest =>
    obtain ⟨w, hcsw, hww⟩ := skipWs_decomp cs
    rw [hsc] at hcsw
    rw [pv_at f cs c rest hsc] at h
    split at h
    · -- object
      rename_i hc1
      subst hc1
      split at h
      · -- empty object
        rename_i r2 heq
        simp only [Option.some.injEq, Prod.mk.injEq] at h
        obtain ⟨hv, hr⟩ := h
        subst hv; subst hr
        obtain ⟨w2, hrest, hw2⟩ := skipWs_decomp rest
        rw [heq] at hrest
        refine ⟨w, '{' :: (w2 ++ ['}']), ?_, hww, by simp, ?_, ?_, ?_, ?_⟩
        · rw [hcsw, hrest]; simp
        · intro c0 hc0
          simp only [List.head?_cons, Option.some.injEq] at hc0
          subst hc0; decide
        · intro cl hcl
          rw [show ('{' :: (w2 ++ ['}'])) = ('{' :: w2) ++ ['}'] from by simp,
            getLast?_concat_eq] at hcl
          injection hcl with hcl
          subst hcl; decide
        · refine alt_chars _ ?_
          intro x hx
          rcases List.mem_cons.1 hx with rfl | hx
          · decide
          rcases List.mem_append.1 hx with hx | hx
          · exact isWs_ne_bt x (hw2 x hx)
          · simp only [List.mem_singleton] at hx; subst hx; decide
        · intro g z hz hg
          obtain ⟨g', rfl⟩ : ∃ g', g = g' + 1 := ⟨g - 1, by omega⟩
          have hsk : skipWs ((w ++ '{' :: (w2 ++ ['}'])) ++ z) = '{' :: ((w2 ++ ['}']) ++ z) := by
            rw [show (w ++ '{' :: (w2 ++ ['}'])) ++ z = w ++ '{' :: ((w2 ++ ['}']) ++ z) from by
              simp]
            exact skipWs_wcons _ _ _ hww (by decide)
          rw [pv_at g' _ '{' _ hsk, if_pos rfl]
          have hsk2 : skipWs ((w2 ++ ['}']) ++ z) = '}' :: z := by
            rw [show (w2 ++ ['}']) ++ z = w2 ++ '}' :: z from by simp]
            exact skipWs_wcons _ _ _ hw2 (by decide)
          rw [hsk2]
          split
          · rename_i r3 heq2
            injection heq2 with h1 h2
            rw [h2]
          · rename_i hne
            exact absurd rfl (hne z)
      · -- nonempty object
        rename_i hnb
        obtain ⟨Cm, hrest, hCmne, hAltm, hlastm, hhead, hlocm⟩ := ihM rest [] v r h
        obtain ⟨w0, C0, hCmdec, hw0⟩ := hhead
        refine ⟨w, '{' :: Cm, ?_, hww, by simp, ?_, ?_, ?_, ?_⟩
        · rw [hcsw, hrest]; simp
        · intro c0 hc0
          simp only [List.head?_cons, Option.some.injEq] at hc0
          subst hc0; decide
        · intro cl hcl
          rw [show ('{' :: Cm) = ['{'] ++ Cm from rfl,
            getLast?_append_ne _ _ hCmne, hlastm] at hcl
          injection hcl with hcl
          subst hcl; decide
        · rw [show ('{' :: Cm) = ['{'] ++ Cm from rfl]
          exact Alt.app _ _ (Alt.chr '{' (by decide)) hAltm
        · intro g z hz hg
          obtain ⟨g', rfl⟩ : ∃ g', g = g' + 1 := ⟨g - 1, by omega⟩
          have hsk : skipWs ((w ++ '{' :: Cm) ++ z) = '{' :: (Cm ++ z) := by
            rw [show (w ++ '{' :: Cm) ++ z = w ++ '{' :: (Cm ++ z) from by simp]
            exact skipWs_wcons _ _ _ hww (by decide)
          rw [pv_at g' _ '{' _ hsk, if_pos rfl]
          have hskm : skipWs (Cm ++ z) = '"' :: (C0 ++ z) := by
            rw [hCmdec, show (w0 ++ '"' :: C0) ++ z = w0 ++ '"' :: (C0 ++ z) from by simp]
            exact skipWs_wcons _ _ _ hw0 (by decide)
          rw [hskm]
          split
          · rename_i r3 heq2
            injection heq2 with h1 h2
            exact absurd h1 (by decide)
          · exact hlocm g' z (by simp only [List.length_cons] at hg; omega)
    · rename_i hc1
      split at h
      · -- array
        rename_i hc2
        subst hc2
        split at h
        · -- empty array
          rename_i r2 heq
          simp only [Option.some.injEq, Prod.mk.injEq] at h
          obtain ⟨hv, hr⟩ := h
          subst hv; subst hr
          obtain ⟨w2, hrest, hw2⟩ := skipWs_decomp rest
          rw [heq] at hrest
          refine ⟨w, '[' :: (w2 ++ [']']), ?_, hww, by simp, ?_, ?_, ?_, ?_⟩
          · rw [hcsw, hrest]; simp
          · intro c0 hc0
            simp only [List.head?_cons, Option.some.injEq] at hc0
            subst hc0; decide
          · intro cl hcl
            rw [show ('[' :: (w2 ++ [']'])) = ('[' :: w2) ++ [']'] from by simp,
              getLast?_concat_eq] at hcl
            injection hcl with hcl
            subst hcl; decide
          · refine alt_chars _ ?_
            intro x hx
            rcases List.mem_cons.1 hx with rfl | hx
            · decide
            rcases List.mem_append.1 hx with hx | hx
            · exact isWs_ne_bt x (hw2 x hx)
            · simp only [List.mem_singleton] at hx; subst hx; decide
          · intro g z hz hg
            obtain ⟨g', rfl⟩ : ∃ g', g = g' + 1 := ⟨g - 1, by omega⟩
            have hsk : skipWs ((w ++ '[' :: (w2 ++ [']'])) ++ z) =
                '[' :: ((w2 ++ [']']) ++ z) := by
              rw [show (w ++ '[' :: (w2 ++ [']'])) ++ z = w ++ '[' :: ((w2 ++ [']']) ++ z) from by
                simp]
              exact skipWs_wcons _ _ _ hww (by decide)
            rw [pv_at g' _ '[' _ hsk,
              if_neg (show ¬(('[' : Char) = '{') from by decide), if_pos rfl]
            have hsk2 : skipWs ((w2 ++ [']']) ++ z) = ']' :: z := by
              rw [show (w2 ++ [']']) ++ z = w2 ++ ']' :: z from by simp]
              exact skipWs_wcons _ _ _ hw2 (by decide)
            rw [hsk2]
            split
            · rename_i r3 heq2
              injection heq2 with h1 h2
              rw [h2]
            · rename_i hne
              exact absurd rfl (hne z)
        · -- nonempty array
          rename_i hnb
          obtain ⟨Ce, hrest, hCene, hAlte, hlaste, hhead, hloce⟩ := ihE rest [] v r h
          obtain ⟨w0, c0, C0, hCedec, hw0, hc0s⟩ := hhead
          refine ⟨w, '[' :: Ce, ?_, hww, by simp, ?_, ?_, ?_, ?_⟩
          · rw [hcsw, hrest]; simp
          · intro c1 hc1'
            simp only [List.head?_cons, Option.some.injEq] at hc1'
            subst hc1'; decide
          · intro cl hcl
            rw [show ('[' :: Ce) = ['['] ++ Ce from rfl,
              getLast?_append_ne _ _ hCene, hlaste] at hcl
            injection hcl with hcl
            subst hcl; decide
          · rw [show ('[' :: Ce) = ['['] ++ Ce from rfl]
            exact Alt.app _ _ (Alt.chr '[' (by decide)) hAlte
          · intro g z hz hg
            obtain ⟨g', rfl⟩ : ∃ g', g = g' + 1 := ⟨g - 1, by omega⟩
            have hsk : skipWs ((w ++ '[' :: Ce) ++ z) = '[' :: (Ce ++ z) := by
              rw [show (w ++ '[' :: Ce) ++ z = w ++ '[' :: (Ce ++ z) from by simp]
              exact skipWs_wcons _ _ _ hww (by decide)
            rw [pv_at g' _ '[' _ hsk,
              if_neg (show ¬(('[' : Char) = '{') from by decide), if_pos rfl]
            have hske : skipWs (Ce ++ z) = c0 :: (C0 ++ z) := by
              rw [hCedec, show (w0 ++ c0 :: C0) ++ z = w0 ++ c0 :: (C0 ++ z) from by simp]
              exact skipWs_wcons _ _ _ hw0 (startChar_not_ws c0 hc0s)
            rw [hske]
            split
            · rename_i r3 heq2
              injection heq2 with h1 h2
              rw [h1] at hc0s
              exact absurd hc0s (by decide)
            · exact hloce g' z (by simp only [List.length_cons] at hg; omega)
      · rename_i hc2
        split at h
        · -- string
          rename_i hc3
          subst hc3
          cases hps : parseStrBody rest with
          | none => rw [hps] at h; exact Option.noConfusion h
          | some p =>
            obtain ⟨d, r1⟩ := p
            rw [hps] at h
            simp only [Option.map_some', Option.some.injEq, Prod.mk.injEq] at h
            obtain ⟨hv, hr⟩ := h
            subst hv; subst hr
            obtain ⟨s, hrest, hnl, sloc⟩ := parseStrBody_spec rest d r1 hps
            refine ⟨w, '"' :: (s ++ ['"']), ?_, hww, by simp, ?_, ?_, ?_, ?_⟩
            · rw [hcsw, hrest]; simp
            · intro c0 hc0
              simp only [List.head?_cons, Option.some.injEq] at hc0
              subst hc0; decide
            · intro cl hcl
              rw [show ('"' :: (s ++ ['"'])) = ('"' :: s) ++ ['"'] from by simp,
                getLast?_concat_eq] at hcl
              injection hcl with hcl
              subst hcl; decide
            · exact Alt.lit s hnl
            · intro g z hz hg
              obtain ⟨g', rfl⟩ : ∃ g', g = g' + 1 := ⟨g - 1, by omega⟩
              have hsk : skipWs ((w ++ '"' :: (s ++ ['"'])) ++ z) =
                  '"' :: ((s ++ ['"']) ++ z) := by
                rw [show (w ++ '"' :: (s ++ ['"'])) ++ z =
                    w ++ '"' :: ((s ++ ['"']) ++ z) from by simp]
                exact skipWs_wcons _ _ _ hww (by decide)
              rw [pv_at g' _ '"' _ hsk,
                if_neg (show ¬(('"' : Char) = '{') from by decide),
                if_neg (show ¬(('"' : Char) = '[') from by decide), if_pos rfl]
              rw [show (s ++ ['"']) ++ z = s ++ '"' :: z from by simp, sloc z]
              rfl
        · rename_i hc3
          split at h
          · -- true
            rename_i hc4
            subst hc4
            split at h
            · rename_i hsw
              simp only [Option.some.injEq, Prod.mk.injEq] at h
              obtain ⟨hv, hr⟩ := h
              subst hv
              obtain ⟨rest', hrest⟩ := (startsWithL_iff _ _).1 hsw
              have hdrop : rest.drop 3 = rest' := by
                rw [hrest, show (3 : Nat) = ("rue".data).length from rfl, List.drop_left]
              have hreq : r = rest' := by rw [← hr, hdrop]
              subst hreq
              refine ⟨w, 't' :: "rue".data, ?_, hww, by simp, ?_, ?_, ?_, ?_⟩
              · rw [hcsw, hrest]; simp
              · intro c0 hc0
                simp only [List.head?_cons, Option.some.injEq] at hc0
                subst hc0; decide
              · intro cl hcl
                rw [show (('t' : Char) :: "rue".data).getLast? = some 'e' from by decide] at hcl
                injection hcl with hcl
                subst hcl; decide
              · exact alt_chars _ (by decide)
              · intro g z hz hg
                obtain ⟨g', rfl⟩ : ∃ g', g = g' + 1 := ⟨g - 1, by omega⟩
                have hsk : skipWs ((w ++ 't' :: "rue".data) ++ z) =
                    't' :: ("rue".data ++ z) := by
                  rw [show (w ++ 't' :: "rue".data) ++ z =
                      w ++ 't' :: ("rue".data ++ z) from by simp]
                  exact skipWs_wcons _ _ _ hww (by decide)
                rw [pv_at g' _ 't' _ hsk,
                  if_neg (show ¬(('t' : Char) = '{') from by decide),
                  if_neg (show ¬(('t' : Char) = '[') from by decide),
                  if_neg (show ¬(('t' : Char) = '"') from by decide), if_pos rfl,
                  if_pos (startsWithL_append "rue".data z),
                  show ("rue".data ++ z).drop 3 = z from by
                    rw [show (3 : Nat) = ("rue".data).length from rfl, List.drop_left]]
            · exact Option.noConfusion h
          · rename_i hc4
            split at h
            · -- false
              rename_i hc5
              subst hc5
              split at h
              · rename_i hsw
                simp only [Option.some.injEq, Prod.mk.injEq] at h
                obtain ⟨hv, hr⟩ := h
                subst hv
                obtain ⟨rest', hrest⟩ := (startsWithL_iff _ _).1 hsw
                have hdrop : rest.drop 4 = rest' := by
                  rw [hrest, show (4 : Nat) = ("alse".data).length from rfl, List.drop_left]
                have hreq : r = rest' := by rw [← hr, hdrop]
                subst hreq
                refine ⟨w, 'f' :: "alse".data, ?_, hww, by simp, ?_, ?_, ?_, ?_⟩
                · rw [hcsw, hrest]; simp
                · intro c0 hc0
                  simp only [List.head?_cons, Option.some.injEq] at hc0
                  subst hc0; decide
                · intro cl hcl
                  rw [show (('f' : Char) :: "alse".data).getLast? = some 'e' from by decide] at hcl
                  injection hcl with hcl
                  subst hcl; decide
                · exact alt_chars _ (by decide)
                · intro g z hz hg
                  obtain ⟨g', rfl⟩ : ∃ g', g = g' + 1 := ⟨g - 1, by omega⟩
                  have hsk : skipWs ((w ++ 'f' :: "alse".data) ++ z) =
                      'f' :: ("alse".data ++ z) := by
                    rw [show (w ++ 'f' :: "alse".data) ++ z =
                        w ++ 'f' :: ("alse".data ++ z) from by simp]
                    exact skipWs_wcons _ _ _ hww (by decide)
                  rw [pv_at g' _ 'f' _ hsk,
                    if_neg (show ¬(('f' : Char) = '{') from by decide),
                    if_neg (show ¬(('f' : Char) = '[') from by decide),
                    if_neg (show ¬(('f' : Char) = '"') from by decide),
                    if_neg (show ¬(('f' : Char) = 't') from by decide), if_pos rfl,
                    if_pos (startsWithL_append "alse".data z),
                    show ("alse".data ++ z).drop 4 = z from by
                      rw [show (4 : Nat) = ("alse".data).length from rfl, List.drop_left]]
              · exact Option.noConfusion h
            · rename_i hc5
              split at h
              · -- null
                rename_i hc6
                subst hc6
                split at h
                · rename_i hsw
                  simp only [Option.some.injEq, Prod.mk.injEq] at h
                  obtain ⟨hv, hr⟩ := h
                  subst hv
                  obtain ⟨rest', hrest⟩ := (startsWithL_iff _ _).1 hsw
                  have hdrop : rest.drop 3 = rest' := by
                    rw [hrest, show (3 : Nat) = ("ull".data).length from rfl, List.drop_left]
                  have hreq : r = rest' := by rw [← hr, hdrop]
                  subst hreq
                  refine ⟨w, 'n' :: "ull".data, ?_, hww, by simp, ?_, ?_, ?_, ?_⟩
                  · rw [hcsw, hrest]; simp
                  · intro c0 hc0
                    simp only [List.head?_cons, Option.some.injEq] at hc0
                    subst hc0; decide
                  · intro cl hcl
                    rw [show (('n' : Char) :: "ull".data).getLast? = some 'l' from by
                      decide] at hcl
                    injection hcl with hcl
                    subst hcl; decide
                  · exact alt_chars _ (by decide)
                  · intro g z hz hg
                    obtain ⟨g', rfl⟩ : ∃ g', g = g' + 1 := ⟨g - 1, by omega⟩
                    have hsk : skipWs ((w ++ 'n' :: "ull".data) ++ z) =
                        'n' :: ("ull".data ++ z) := by
                      rw [show (w ++ 'n' :: "ull".data) ++ z =
                          w ++ 'n' :: ("ull".data ++ z) from by simp]
                      exact skipWs_wcons _ _ _ hww (by decide)
                    rw [pv_at g' _ 'n' _ hsk,
                      if_neg (show ¬(('n' : Char) = '{') from by decide),
                      if_neg (show ¬(('n' : Char) = '[') from by decide),
                      if_neg (show ¬(('n' : Char) = '"') from by decide),
                      if_neg (show ¬(('n' : Char) = 't') from by decide),
                      if_neg (show ¬(('n' : Char) = 'f') from by decide), if_pos rfl,
                      if_pos (startsWithL_append "ull".data z),
                      show ("ull".data ++ z).drop 3 = z from by
                        rw [show (3 : Nat) = ("ull".data).length from rfl, List.drop_left]]
                · exact Option.noConfusion h
              · rename_i hc6
                split at h
                · -- number
                  rename_i hnum
                  cases hpn : parseNum (c :: rest) with
                  | none => rw [hpn] at h; exact Option.noConfusion h
                  | some p =>
                    obtain ⟨lex, r1⟩ := p
                    rw [hpn] at h
                    simp only [Option.map_some', Option.some.injEq, Prod.mk.injEq] at h
                    obtain ⟨hv, hr⟩ := h
                    subst hv; subst hr
                    obtain ⟨hlex, hall, hlast, hhead, ploc⟩ := parseNum_spec _ _ _ hpn
                    cases lex with
                    | nil =>
                      obtain ⟨c0, hc0, _⟩ := hhead
                      exact Option.noConfusion hc0
                    | cons c0 lex' =>
                      obtain ⟨c0', hc0', hc0or⟩ := hhead
                      simp only [List.head?_cons, Option.some.injEq] at hc0'
                      subst hc0'
                      simp only [List.cons_append] at hlex
                      injection hlex with h1 h2
                      subst h1
                      refine ⟨w, c :: lex', ?_, hww, by simp, ?_, ?_, ?_, ?_⟩
                      · rw [hcsw, h2]; simp
                      · intro c1 hc1'
                        simp only [List.head?_cons, Option.some.injEq] at hc1'
                        subst hc1'
                        rcases hc0or with hx | hx
                        · subst hx; decide
                        · simp [startChar, hx]
                      · intro cl hcl
                        obtain ⟨cl', hcl', hdig⟩ := hlast
                        rw [hcl'] at hcl
                        injection hcl with hcl
                        subst hcl
                        simp [endChar, hdig]
                      · refine alt_chars _ ?_
                        intro x hx
                        exact (numContChar_class x (hall x hx)).2
                      · intro g z hz hg
                        obtain ⟨g', rfl⟩ : ∃ g', g = g' + 1 := ⟨g - 1, by omega⟩
                        have hnws : isWs c = false := by
                          rcases hc0or with hx | hx
                          · subst hx; decide
                          · exact digit_not_ws c hx
                        have hsk : skipWs ((w ++ c :: lex') ++ z) = c :: (lex' ++ z) := by
                          rw [show (w ++ c :: lex') ++ z = w ++ c :: (lex' ++ z) from by simp]
                          exact skipWs_wcons _ _ _ hww hnws
                        rw [pv_at g' _ c _ hsk, if_neg hc1, if_neg hc2, if_neg hc3,
                          if_neg hc4, if_neg hc5, if_neg hc6, if_pos hnum,
                          show (c :: (lex' ++ z) : List Char) = (c :: lex') ++ z from by simp,
                          ploc z hz]
                        rfl
                · exact Option.noConfusion h

theorem mem_step (f : Nat)
    (ihV : ∀ cs v r, parseVal f cs = some (v, r) → ValSpec cs v r)
    (ihM : ∀ cs acc v r, parseMembers f cs acc = some (v, r) → MemSpec cs acc v r) :
    ∀ cs acc v r, parseMembers (f + 1) cs acc = some (v, r) → MemSpec cs acc v r := by
  intro cs acc v r h
  simp only [parseMembers] at h
  split at h
  · rename_i rest heq
    obtain ⟨w1, hcs, hw1⟩ := skipWs_decomp cs
    rw [heq] at hcs
    split at h
    · exact Option.noConfusion h
    · rename_i key r1 heq2
      obtain ⟨sk, hrest, hnl, sloc⟩ := parseStrBody_spec rest key r1 heq2
      split at h
      · rename_i r2 heq3
        obtain ⟨w2, hr1, hw2⟩ := skipWs_decomp r1
        rw [heq3] at hr1
        split at h
        · exact Option.noConfusion h
        · rename_i vv r3 heq4
          obtain ⟨wv, Cv, hr2, hwv, hCvne, hheadv, hlastv, hAltv, hlocv⟩ := ihV r2 vv r3 heq4
          split at h
          · -- comma: recurse
            rename_i r4 heq5
            obtain ⟨w3, hr3, hw3⟩ := skipWs_decomp r3
            rw [heq5] at hr3
            obtain ⟨Cm, hr4, hCmne, hAltm, hlastm, hheadm, hlocm⟩ :=
              ihM r4 (setField acc key vv) v r h
            refine ⟨w1 ++ '"' :: (sk ++ '"' :: (w2 ++ ':' :: (wv ++ (Cv ++ (w3 ++ ',' :: Cm))))),
              ?_, by simp, ?_, ?_, ⟨w1, _, rfl, hw1⟩, ?_⟩
            · rw [hcs, hrest, hr1, hr2, hr3, hr4]; simp
            · have hA : Alt (w1 ++ (('"' :: (sk ++ ['"'])) ++ (w2 ++ ([':'] ++ (wv ++ (Cv ++
                  (w3 ++ ([','] ++ Cm)))))))) :=
                Alt.app _ _ (alt_ws w1 hw1) (Alt.app _ _ (Alt.lit sk hnl)
                  (Alt.app _ _ (alt_ws w2 hw2) (Alt.app _ _ (Alt.chr ':' (by decide))
                    (Alt.app _ _ (alt_ws wv hwv) (Alt.app _ _ hAltv
                      (Alt.app _ _ (alt_ws w3 hw3)
                        (Alt.app _ _ (Alt.chr ',' (by decide)) hAltm)))))))
              have heqC : w1 ++ (('"' :: (sk ++ ['"'])) ++ (w2 ++ ([':'] ++ (wv ++ (Cv ++
                  (w3 ++ ([','] ++ Cm))))))) =
                  w1 ++ '"' :: (sk ++ '"' :: (w2 ++ ':' :: (wv ++ (Cv ++ (w3 ++ ',' :: Cm))))) :=
                by simp
              exact heqC ▸ hA
            · rw [show (w1 ++ '"' :: (sk ++ '"' :: (w2 ++ ':' :: (wv ++ (Cv ++
                  (w3 ++ ',' :: Cm)))))) =
                (w1 ++ '"' :: (sk ++ '"' :: (w2 ++ ':' :: (wv ++ (Cv ++ (w3 ++ [','])))))) ++ Cm
                from by simp, getLast?_append_ne _ _ hCmne]
              exact hlastm
            · intro g z hg
              obtain ⟨g', rfl⟩ : ∃ g', g = g' + 1 := ⟨g - 1, by omega⟩
              have h1 : skipWs ((w1 ++ '"' :: (sk ++ '"' :: (w2 ++ ':' :: (wv ++ (Cv ++
                  (w3 ++ ',' :: Cm)))))) ++ z) =
                  '"' :: (sk ++ '"' :: (w2 ++ ':' :: ((wv ++ Cv) ++ (w3 ++ ',' :: (Cm ++ z))))) := by
                rw [show (w1 ++ '"' :: (sk ++ '"' :: (w2 ++ ':' :: (wv ++ (Cv ++
                    (w3 ++ ',' :: Cm)))))) ++ z =
                  w1 ++ '"' :: (sk ++ '"' :: (w2 ++ ':' :: ((wv ++ Cv) ++
                    (w3 ++ ',' :: (Cm ++ z))))) from by simp]
                exact skipWs_wcons _ _ _ hw1 (by decide)
              have h2 : parseStrBody (sk ++ '"' :: (w2 ++ ':' :: ((wv ++ Cv) ++
                  (w3 ++ ',' :: (Cm ++ z))))) =
                  some (key, w2 ++ ':' :: ((wv ++ Cv) ++ (w3 ++ ',' :: (Cm ++ z)))) := sloc _
              have h3 : skipWs (w2 ++ ':' :: ((wv ++ Cv) ++ (w3 ++ ',' :: (Cm ++ z)))) =
                  ':' :: ((wv ++ Cv) ++ (w3 ++ ',' :: (Cm ++ z))) :=
                skipWs_wcons _ _ _ hw2 (by decide)
              have h4 : parseVal g' ((wv ++ Cv) ++ (w3 ++ ',' :: (Cm ++ z))) =
                  some (vv, w3 ++ ',' :: (Cm ++ z)) :=
                hlocv g' _ (safeTail_ws_cons w3 ',' _ hw3 (by decide))
                  (by simp only [List.length_append, List.length_cons] at hg; omega)
              rw [pm_eval g' _ acc _ key _ _ vv _ h1 h2 h3 h4,
                skipWs_wcons w3 ',' _ hw3 (by decide)]
              split
              · rename_i r5 heqx
                injection heqx with e1 e2
                rw [← e2]
                exact hlocm g' z
                  (by simp only [List.length_append, List.length_cons] at hg; omega)
              · rename_i r5 heqx
                injection heqx with e1 e2
                exact absurd e1 (by decide)
              · rename_i hne1 hne2
                exact absurd rfl (hne1 (Cm ++ z))
          · -- closing brace
            rename_i r4 heq5
            obtain ⟨w3, hr3, hw3⟩ := skipWs_decomp r3
            rw [heq5] at hr3
            simp only [Option.some.injEq, Prod.mk.injEq] at h
            obtain ⟨hv, hr⟩ := h
            subst hv; subst hr
            refine ⟨w1 ++ '"' :: (sk ++ '"' :: (w2 ++ ':' :: (wv ++ (Cv ++ (w3 ++ ['}']))))),
              ?_, by simp, ?_, ?_, ⟨w1, _, rfl, hw1⟩, ?_⟩
            · rw [hcs, hrest, hr1, hr2, hr3]; simp
            · have hA : Alt (w1 ++ (('"' :: (sk ++ ['"'])) ++ (w2 ++ ([':'] ++ (wv ++ (Cv ++
                  (w3 ++ ['}']))))))) :=
                Alt.app _ _ (alt_ws w1 hw1) (Alt.app _ _ (Alt.lit sk hnl)
                  (Alt.app _ _ (alt_ws w2 hw2) (Alt.app _ _ (Alt.chr ':' (by decide))
                    (Alt.app _ _ (alt_ws wv hwv) (Alt.app _ _ hAltv
                      (Alt.app _ _ (alt_ws w3 hw3) (Alt.chr '}' (by decide))))))))
              have heqC : w1 ++ (('"' :: (sk ++ ['"'])) ++ (w2 ++ ([':'] ++ (wv ++ (Cv ++
                  (w3 ++ ['}'])))))) =
                  w1 ++ '"' :: (sk ++ '"' :: (w2 ++ ':' :: (wv ++ (Cv ++ (w3 ++ ['}']))))) :=
                by simp
              exact heqC ▸ hA
            · rw [show (w1 ++ '"' :: (sk ++ '"' :: (w2 ++ ':' :: (wv ++ (Cv ++
                  (w3 ++ ['}'])))))) =
                (w1 ++ '"' :: (sk ++ '"' :: (w2 ++ ':' :: (wv ++ (Cv ++ w3))))) ++ ['}']
                from by simp, getLast?_concat_eq]
            · intro g z hg
              obtain ⟨g', rfl⟩ : ∃ g', g = g' + 1 := ⟨g - 1, by omega⟩
              have h1 : skipWs ((w1 ++ '"' :: (sk ++ '"' :: (w2 ++ ':' :: (wv ++ (Cv ++
                  (w3 ++ ['}'])))))) ++ z) =
                  '"' :: (sk ++ '"' :: (w2 ++ ':' :: ((wv ++ Cv) ++ (w3 ++ '}' :: z)))) := by
                rw [show (w1 ++ '"' :: (sk ++ '"' :: (w2 ++ ':' :: (wv ++ (Cv ++
                    (w3 ++ ['}'])))))) ++ z =
                  w1 ++ '"' :: (sk ++ '"' :: (w2 ++ ':' :: ((wv ++ Cv) ++ (w3 ++ '}' :: z))))
                  from by simp]
                exact skipWs_wcons _ _ _ hw1 (by decide)
              have h2 : parseStrBody (sk ++ '"' :: (w2 ++ ':' :: ((wv ++ Cv) ++
                  (w3 ++ '}' :: z)))) =
                  some (key, w2 ++ ':' :: ((wv ++ Cv) ++ (w3 ++ '}' :: z))) := sloc _
              have h3 : skipWs (w2 ++ ':' :: ((wv ++ Cv) ++ (w3 ++ '}' :: z))) =
                  ':' :: ((wv ++ Cv) ++ (w3 ++ '}' :: z)) :=
                skipWs_wcons _ _ _ hw2 (by decide)
              have h4 : parseVal g' ((wv ++ Cv) ++ (w3 ++ '}' :: z)) =
                  some (vv, w3 ++ '}' :: z) :=
                hlocv g' _ (safeTail_ws_cons w3 '}' _ hw3 (by decide))
                  (by simp only [List.length_append, List.length_cons] at hg; omega)
              rw [pm_eval g' _ acc _ key _ _ vv _ h1 h2 h3 h4,
                skipWs_wcons w3 '}' _ hw3 (by decide)]
              split
              · rename_i r5 heqx
                injection heqx with e1 e2
                exact absurd e1 (by decide)
              · rename_i r5 heqx
                injection heqx with e1 e2
                rw [← e2]
              · rename_i hne1 hne2
                exact absurd rfl (hne2 z)
          · exact Option.noConfusion h
      · exact Option.noConfusion h
  · exact Option.noConfusion h

theorem elem_step (f : Nat)
    (ihV : ∀ cs v r, parseVal f cs = some (v, r) → ValSpec cs v r)
    (ihE : ∀ cs acc v r, parseElems f cs acc = some (v, r) → ElemSpec cs acc v r) :
    ∀ cs acc v r, parseElems (f + 1) cs acc = some (v, r) → ElemSpec cs acc v r := by
  intro cs acc v r h
  simp only [parseElems] at h
  split at h
  · exact Option.noConfusion h
  · rename_i vv r1 heq1
    obtain ⟨wv, Cv, hcs, hwv, hCvne, hheadv, hlastv, hAltv, hlocv⟩ := ihV cs vv r1 heq1
    cases Cv with
    | nil => exact absurd rfl hCvne
    | cons c0 Cv0 =>
      have hc0s : startChar c0 = true := hheadv c0 rfl
      split at h
      · -- comma: recurse
        rename_i r2 heq2
        obtain ⟨w2, hr1, hw2⟩ := skipWs_decomp r1
        rw [heq2] at hr1
        obtain ⟨Ce, hr2e, hCene, hAlte, hlaste, hheade, hloce⟩ := ihE r2 (acc ++ [vv]) v r h
        refine ⟨wv ++ ((c0 :: Cv0) ++ (w2 ++ ',' :: Ce)), ?_, by simp, ?_, ?_,
          ⟨wv, c0, Cv0 ++ (w2 ++ ',' :: Ce), by simp, hwv, hc0s⟩, ?_⟩
        · rw [hcs, hr1, hr2e]; simp
        · have hA : Alt (wv ++ ((c0 :: Cv0) ++ (w2 ++ ([','] ++ Ce)))) :=
            Alt.app _ _ (alt_ws wv hwv) (Alt.app _ _ hAltv
              (Alt.app _ _ (alt_ws w2 hw2) (Alt.app _ _ (Alt.chr ',' (by decide)) hAlte)))
          have heqC : wv ++ ((c0 :: Cv0) ++ (w2 ++ ([','] ++ Ce))) =
              wv ++ ((c0 :: Cv0) ++ (w2 ++ ',' :: Ce)) := by simp
          exact heqC ▸ hA
        · rw [show (wv ++ ((c0 :: Cv0) ++ (w2 ++ ',' :: Ce))) =
              (wv ++ ((c0 :: Cv0) ++ (w2 ++ [',']))) ++ Ce from by simp,
            getLast?_append_ne _ _ hCene]
          exact hlaste
        · intro g z hg
          obtain ⟨g', rfl⟩ : ∃ g', g = g' + 1 := ⟨g - 1, by omega⟩
          have h1 : parseVal g' ((wv ++ ((c0 :: Cv0) ++ (w2 ++ ',' :: Ce))) ++ z) =
              some (vv, w2 ++ ',' :: (Ce ++ z)) := by
            rw [show (wv ++ ((c0 :: Cv0) ++ (w2 ++ ',' :: Ce))) ++ z =
                (wv ++ (c0 :: Cv0)) ++ (w2 ++ ',' :: (Ce ++ z)) from by simp]
            exact hlocv g' _ (safeTail_ws_cons w2 ',' _ hw2 (by decide))
              (by simp only [List.length_append, List.length_cons] at hg ⊢; omega)
          rw [pe_eval g' _ acc vv _ h1, skipWs_wcons w2 ',' _ hw2 (by decide)]
          split
          · rename_i r5 heqx
            injection heqx with e1 e2
            rw [← e2]
            exact hloce g' z (by simp only [List.length_append, List.length_cons] at hg; omega)
          · rename_i r5 heqx
            injection heqx with e1 e2
            exact absurd e1 (by decide)
          · rename_i hne1 hne2
            exact absurd rfl (hne1 (Ce ++ z))
      · -- closing bracket
        rename_i r2 heq2
        obtain ⟨w2, hr1, hw2⟩ := skipWs_decomp r1
        rw [heq2] at hr1
        simp only [Option.some.injEq, Prod.mk.injEq] at h
        obtain ⟨hv, hr⟩ := h
        subst hv; subst hr
        refine ⟨wv ++ ((c0 :: Cv0) ++ (w2 ++ [']'])), ?_, by simp, ?_, ?_,
          ⟨wv, c0, Cv0 ++ (w2 ++ [']']), by simp, hwv, hc0s⟩, ?_⟩
        · rw [hcs, hr1]; simp
        · have hA : Alt (wv ++ ((c0 :: Cv0) ++ (w2 ++ [']']))) :=
            Alt.app _ _ (alt_ws wv hwv) (Alt.app _ _ hAltv
              (Alt.app _ _ (alt_ws w2 hw2) (Alt.chr ']' (by decide))))
          exact hA
        · rw [show (wv ++ ((c0 :: Cv0) ++ (w2 ++ [']']))) =
              (wv ++ ((c0 :: Cv0) ++ w2)) ++ [']'] from by simp, getLast?_concat_eq]
        · intro g z hg
          obtain ⟨g', rfl⟩ : ∃ g', g = g' + 1 := ⟨g - 1, by omega⟩
          have h1 : parseVal g' ((wv ++ ((c0 :: Cv0) ++ (w2 ++ [']']))) ++ z) =
              some (vv, w2 ++ ']' :: z) := by
            rw [show (wv ++ ((c0 :: Cv0) ++ (w2 ++ [']']))) ++ z =
                (wv ++ (c0 :: Cv0)) ++ (w2 ++ ']' :: z) from by simp]
            exact hlocv g' _ (safeTail_ws_cons w2 ']' _ hw2 (by decide))
              (by simp only [List.length_append, List.length_cons] at hg ⊢; omega)
          rw [pe_eval g' _ acc vv _ h1, skipWs_wcons w2 ']' _ hw2 (by decide)]
          split
          · rename_i r5 heqx
            injection heqx with e1 e2
            exact absurd e1 (by decide)
          · rename_i r5 heqx
            injection heqx with e1 e2
            rw [← e2]
          · rename_i hne1 hne2
            exact absurd rfl (hne2 z)
      · exact Option.noConfusion h

theorem parser_spec : ∀ f : Nat,
    (∀ cs v r, parseVal f cs = some (v, r) → ValSpec cs v r) ∧
    (∀ cs acc v r, parseMembers f cs acc = some (v, r) → MemSpec cs acc v r) ∧
    (∀ cs acc v r, parseElems f cs acc = some (v, r) → ElemSpec cs acc v r) := by
  intro f
  induction f with
  | zero =>
    refine ⟨?_, ?_, ?_⟩
    · intro cs v r h; exact Option.noConfusion h
    · intro cs acc v r h; exact Option.noConfusion h
    · intro cs acc v r h; exact Option.noConfusion h
  | succ f ih =>
    obtain ⟨ihV, ihM, ihE⟩ := ih
    exact ⟨val_step f ihM ihE, mem_step f ihV ihM, elem_step f ihV ihE⟩

theorem isWs_jsws (c : Char) (h : isWs c = true) : isJsWs c = true := by
  cases hb : isJsWs c with
  | true => rfl
  | false => rw [isWs_of_not_jsws c hb] at h; exact Bool.noConfusion h

theorem startChar_not_jsws (c : Char) (h : startChar c = true) : isJsWs c = false := by
  simp only [startChar, Bool.or_eq_true, decide_eq_true_eq] at h
  rcases h with ((((((h|h)|h)|h)|h)|h)|h)|h
  case inr => exact isDigit_not_jsws c h
  all_goals subst h
  all_goals decide

theorem endChar_not_jsws (c : Char) (h : endChar c = true) : isJsWs c = false := by
  simp only [endChar, Bool.or_eq_true, decide_eq_true_eq] at h
  rcases h with ((((h|h)|h)|h)|h)|h
  case inr => exact isDigit_not_jsws c h
  all_goals subst h
  all_goals decide

theorem parseVal_ws (g : Nat) (w x : List Char) (hw : ∀ c ∈ w, isWs c = true) :
    parseVal g (w ++ x) = parseVal g x := by
  cases g with
  | zero => rfl
  | succ g => simp only [parseVal, skipWs_ws_append w x hw]

theorem parseVal_bt (g : Nat) (xs : List Char) : parseVal g (btChar :: xs) = none := by
  cases g with
  | zero => rfl
  | succ g =>
    rw [pv_at g _ btChar xs (skipWs_cons_not_ws _ _ (by decide))]
    split
    · rename_i hx; exact absurd hx (by decide)
    split
    · rename_i hx; exact absurd hx (by decide)
    split
    · rename_i hx; exact absurd hx (by decide)
    split
    · rename_i hx; exact absurd hx (by decide)
    split
    · rename_i hx; exact absurd hx (by decide)
    split
    · rename_i hx; exact absurd hx (by decide)
    split
    · rename_i hx; exact absurd hx (by decide)
    rfl

theorem parseJson_bt (xs : List Char) : parseJson (btChar :: xs) = none := by
  unfold parseJson
  rw [parseVal_bt]

theorem parse_roundtrip (t : List Char) (v : Json) (ht : parseJson t = some v) :
    parseJson (wrapFence t) = none ∧ parseJson (cleanResponse (wrapFence t)) = some v := by
  unfold parseJson at ht
  split at ht
  · rename_i v0 rest heqp
    split at ht
    · rename_i hrest
      injection ht with ht
      subst ht
      obtain ⟨w, C, htdec, hww, hCne, hhead, hlast, hAltC, hloc⟩ :=
        (parser_spec (3 * t.length + 3)).1 t v0 rest heqp
      have hrws : ∀ c ∈ rest, isWs c = true := skipWs_all_ws rest hrest
      have hAltt : Alt t := by
        rw [htdec]
        exact Alt.app _ _ (Alt.app _ _ (alt_ws w hww) hAltC) (alt_ws rest hrws)
      constructor
      · rw [show wrapFence t = btChar :: ("``json\n".data ++ (t ++ fenceClose)) from by
          rw [wrapFence, show fenceOpen = btChar :: "``json\n".data from by decide]
          simp]
        exact parseJson_bt _
      · have hclean : cleanResponse (wrapFence t) = C := by
          unfold cleanResponse
          rw [strip_wrap t hAltt, htdec]
          exact jsTrim_decomp w C rest (fun c hc => isWs_jsws c (hww c hc))
            (fun c hc => isWs_jsws c (hrws c hc))
            (fun c hc => startChar_not_jsws c (hhead c hc))
            (fun c hc => endChar_not_jsws c (hlast c hc))
        rw [hclean]
        unfold parseJson
        have hpv : parseVal (3 * C.length + 3) C = some (v0, []) := by
          have h0 := hloc (3 * C.length + 3) [] (by decide) (by omega)
          rw [List.append_nil] at h0
          rw [← parseVal_ws (3 * C.length + 3) w C hww]
          exact h0
        rw [hpv]
        rfl
    · exact Option.noConfusion ht
  · exact Option.noConfusion ht

/-- **C5**: round-trip of the response-parsing step.  For every upstream
response text `t` that is valid JSON (parsing to `v`), the two-attempt parse
recovers `v` both from `t` itself and from `t` wrapped in the markdown
` ```json `/` ``` ` code fence: the direct parse of the wrapped text fails,
but stripping the fences and trimming recovers exactly `t`'s trimmed JSON
and reparses to the same value `v`.  Moreover the two-attempt parse fails
(sending both routes into their upstream-error handling) exactly when the
direct parse and the fence-stripped retry both fail. -/
theorem claim_C5 (t : List Char) (v : Json) (ht : parseJson t = some v) :
    parseLlm t = some v ∧ parseLlm (wrapFence t) = some v ∧
    (∀ u, parseLlm u = none ↔
      (parseJson u = none ∧ parseJson (cleanResponse u) = none)) := by
  obtain ⟨h1, h2⟩ := parse_roundtrip t v ht
  refine ⟨?_, ?_, ?_⟩
  · unfold parseLlm
    rw [ht]
  · unfold parseLlm
    rw [h1]
    exact h2
  · intro u
    unfold parseLlm
    cases hpu : parseJson u with
    | some a => simp
    | none => simp

theorem claim_C5_witness :
    parseJson "[1, true]".data = some (Json.arr [Json.num ['1'], Json.bool true]) ∧
    parseLlm (wrapFence "[1, true]".data) = some (Json.arr [Json.num ['1'], Json.bool true]) :=
  ⟨rfl, (claim_C5 "[1, true]".data (Json.arr [Json.num ['1'], Json.bool true]) rfl).2.1⟩
